import Mathlib

/-!
Verification of the Atlas failure-atomic persistent-memory runtime
(recovery driver, persistent region manager, log manager API and
compiler instrumentation), shallowly embedded from the C++ sources
`recover.cpp`, `pregion_mgr.cpp`, `log_mgr_api.cpp`, `util.cpp` and
`NvmInstrumenter.cpp`.  Machine integers are modelled as `Nat`; persistent
memory is a byte-addressed function `Nat → Nat`; pointers (log-entry
addresses) are `Nat` identifiers with `0` playing the role of `NULL`.
-/

namespace AtlasModel

/-! ## Small association-list helpers (used for the recovery trackers) -/

def lookupA {α : Type} : List (Nat × α) → Nat → Option α
  | [], _ => none
  | (k, v) :: rest, key => if k = key then some v else lookupA rest key

def updateA {α : Type} : List (Nat × α) → Nat → α → List (Nat × α)
  | [], _, _ => []
  | (k, v) :: rest, key, nv =>
    if k = key then (k, nv) :: rest else (k, v) :: updateA rest key nv

theorem lookupA_updateA_self {α : Type} (l : List (Nat × α)) (k : Nat) (nv : α) :
    (lookupA l k).isSome → lookupA (updateA l k nv) k = some nv := by
  induction l with
  | nil => intro h; simp [lookupA] at h
  | cons p rest ih =>
    intro h
    by_cases hk : p.1 = k
    · simp [lookupA, updateA, hk]
    · simp [lookupA, updateA, hk] at h ⊢
      exact ih h

theorem lookupA_updateA_ne {α : Type} (l : List (Nat × α)) (k k' : Nat) (nv : α)
    (hne : k' ≠ k) : lookupA (updateA l k nv) k' = lookupA l k' := by
  have hkk : ¬ k = k' := fun h => hne h.symm
  induction l with
  | nil => simp [updateA]
  | cons p rest ih =>
    by_cases hk : p.1 = k
    · simp only [updateA, hk, if_pos, lookupA, hkk, if_neg, if_false]
    · simp only [updateA, hk, if_neg, if_false, lookupA]
      by_cases hk' : p.1 = k'
      · simp [hk']
      · simp [hk', ih]

/-! ## Byte-addressed persistent memory -/

abbrev Mem : Type := Nat → Nat

def writeByte (m : Mem) (a v : Nat) : Mem := fun x => if x = a then v else m x

def writeBytes (m : Mem) (a : Nat) : List Nat → Mem
  | [] => m
  | v :: vs => writeBytes (writeByte m a v) (a + 1) vs

/-- Byte `i` of the little-endian representation of the word `v`. -/
def byteOfWord (v i : Nat) : Nat := v / 256 ^ i % 256

/-- The first `k` little-endian bytes of the word `v`. -/
def wordBytes (v k : Nat) : List Nat := (List.range k).map (byteOfWord v)

def readBytes (m : Mem) (src n : Nat) : List Nat :=
  (List.range n).map (fun i => m (src + i))

/-- Little-endian value of the 8-byte word stored at `a`. -/
def readWord (m : Mem) (a : Nat) : Nat :=
  m a + m (a + 1) * 256 + m (a + 2) * 256 ^ 2 + m (a + 3) * 256 ^ 3 +
    m (a + 4) * 256 ^ 4 + m (a + 5) * 256 ^ 5 + m (a + 6) * 256 ^ 6 +
    m (a + 7) * 256 ^ 7

theorem writeBytes_spec (vs : List Nat) (m : Mem) (a x : Nat) :
    writeBytes m a vs x =
      if a ≤ x ∧ x < a + vs.length then vs.getD (x - a) 0 else m x := by
  induction vs generalizing m a with
  | nil =>
    have hnot : ¬ (a ≤ x ∧ x < a) := by omega
    simp [writeBytes, hnot]
  | cons v vs ih =>
    simp only [writeBytes, List.length_cons]
    rw [ih]
    by_cases hx : x = a
    · subst hx
      have h1 : ¬ (x + 1 ≤ x ∧ x < x + 1 + vs.length) := by omega
      have h2 : x ≤ x ∧ x < x + (vs.length + 1) := by omega
      simp [h1, h2, writeByte]
    · by_cases hin : a + 1 ≤ x ∧ x < a + 1 + vs.length
      · have h2 : a ≤ x ∧ x < a + (vs.length + 1) := by omega
        have hxa : x - a = (x - (a + 1)) + 1 := by omega
        simp [hin, h2, hxa]
      · have h2 : ¬ (a ≤ x ∧ x < a + (vs.length + 1)) := by
          intro h; exact hin ⟨by omega, by omega⟩
        simp [hin, h2, writeByte, hx]

/-! ## Log entries (layout from the spec's persisted format; the header
`log_structure.hpp` that declares `LogEntry` is not among the provided
sources, so the record and its type predicates are modelled from the
spec's data-model section). -/

inductive LEType where
  | str | memset | memcpy | memmove | strcpy | strcat
  | acquire | release | rwlockRd | rwlockWr | rwUnlock
  | alloc | free
  | beginDurable | endDurable
deriving DecidableEq, Repr

/-- One undo-log record: `eid` stands for the entry's address on PM
(the value other entries use to point to it; `0` is the NULL pointer),
`addr`/`size`/`valueOrPtr` are the persisted fields. -/
structure LogEntry where
  eid : Nat
  addr : Nat
  size : Nat
  valueOrPtr : Nat
  typ : LEType
deriving DecidableEq, Repr

/-- Modelled from the spec: `isAcquire` covers mutex and rwlock acquires
(the rwlock variants are "like acquire/release but tagged"). -/
def LogEntry.isAcquire (e : LogEntry) : Bool :=
  match e.typ with
  | .acquire | .rwlockRd | .rwlockWr => true
  | _ => false

/-- Modelled from the spec: a release entry is a mutex release or an
rwlock unlock. -/
def LogEntry.isRelease (e : LogEntry) : Bool :=
  match e.typ with
  | .release | .rwUnlock => true
  | _ => false

def LogEntry.isStr (e : LogEntry) : Bool := e.typ = .str

def LogEntry.isMemop (e : LogEntry) : Bool :=
  match e.typ with
  | .memset | .memcpy | .memmove => true
  | _ => false

def LogEntry.isStrop (e : LogEntry) : Bool :=
  match e.typ with
  | .strcpy | .strcat => true
  | _ => false

def LogEntry.isAlloc (e : LogEntry) : Bool := e.typ = .alloc

def LogEntry.isFree (e : LogEntry) : Bool := e.typ = .free

def LogEntry.isMemset (e : LogEntry) : Bool := e.typ = .memset

def LogEntry.isMemcpy (e : LogEntry) : Bool := e.typ = .memcpy

def LogEntry.isMemmove (e : LogEntry) : Bool := e.typ = .memmove

def LogEntry.isStrcpy (e : LogEntry) : Bool := e.typ = .strcpy

def LogEntry.isStrcat (e : LogEntry) : Bool := e.typ = .strcat

/-! ## The memory effect of `Replay` (recover.cpp)

`Replay(le)` undoes one log entry in place:
  - `str`: `memcpy(addr, &(le->ValueOrPtr), le->Size/8)` — writes the
    recorded pre-image word back, `Size/8` bytes;
  - memset/memcpy/memmove/strcpy/strcat: `memcpy(addr, (void*)le->ValueOrPtr,
    le->Size)` — copies `Size` bytes from the side buffer;
  - alloc: `*((size_t*)addr) = false` — clears the allocator in-use word;
  - free : `*((size_t*)addr) = true` — sets the allocator in-use word.
The `mapped_prs` bookkeeping (`ensurePRegionMapped`) changes no user
memory and is omitted here. -/
def replayMem (le : LogEntry) (m : Mem) : Mem :=
  if le.isStr then writeBytes m le.addr (wordBytes le.valueOrPtr (le.size / 8))
  else if le.isMemop || le.isStrop then
    writeBytes m le.addr (readBytes m le.valueOrPtr le.size)
  else if le.isAlloc then writeBytes m le.addr (wordBytes 0 8)
  else if le.isFree then writeBytes m le.addr (wordBytes 1 8)
  else m

theorem wordBytes_length (v k : Nat) : (wordBytes v k).length = k := by
  simp [wordBytes]

theorem wordBytes_getD (v k i : Nat) (h : i < k) :
    (wordBytes v k).getD i 0 = byteOfWord v i := by
  simp [wordBytes, List.getD_eq_getElem?_getD, List.getElem?_map, List.getElem?_range, h]

theorem readBytes_length (m : Mem) (src n : Nat) : (readBytes m src n).length = n := by
  simp [readBytes]

theorem readBytes_getD (m : Mem) (src n i : Nat) (h : i < n) :
    (readBytes m src n).getD i 0 = m (src + i) := by
  simp [readBytes, List.getD_eq_getElem?_getD, List.getElem?_map, List.getElem?_range, h]

theorem readWord_writeBytes_word (m : Mem) (a v : Nat) (hv : v < 256) :
    readWord (writeBytes m a (wordBytes v 8)) a = v := by
  have hlen := wordBytes_length v 8
  have hb : ∀ i, i < 8 → writeBytes m a (wordBytes v 8) (a + i) = byteOfWord v i := by
    intro i hi
    rw [writeBytes_spec, hlen]
    have hin : a ≤ a + i ∧ a + i < a + 8 := by omega
    have hd : a + i - a = i := by omega
    rw [if_pos hin, hd, wordBytes_getD v 8 i hi]
  have h0 : byteOfWord v 0 = v := by
    simp [byteOfWord, Nat.mod_eq_of_lt hv]
  have hrest : ∀ i, 1 ≤ i → byteOfWord v i = 0 := by
    intro i hi
    have : v / 256 ^ i = 0 := by
      apply Nat.div_eq_of_lt
      calc v < 256 := hv
        _ = 256 ^ 1 := (pow_one 256).symm
        _ ≤ 256 ^ i := Nat.pow_le_pow_right (by omega) hi
    simp [byteOfWord, this]
  have ha0 : writeBytes m a (wordBytes v 8) a = v := by
    have h := hb 0 (by omega)
    rw [Nat.add_zero] at h
    rw [h, h0]
  rw [readWord, ha0, hb 1 (by omega), hb 2 (by omega), hb 3 (by omega),
    hb 4 (by omega), hb 5 (by omega), hb 6 (by omega), hb 7 (by omega),
    hrest 1 (by omega), hrest 2 (by omega), hrest 3 (by omega), hrest 4 (by omega),
    hrest 5 (by omega), hrest 6 (by omega), hrest 7 (by omega)]
  ring

/-- CLAIM C2. Undo replay semantics of `Replay` (recover.cpp lines 231-264):
a `str` entry writes the `Size/8` little-endian bytes of the recorded
pre-image word `value_or_pointer` back to `Addr` and changes nothing else;
a memset/memcpy/memmove/strcpy/strcat entry copies `Size` bytes from the
side buffer pointed to by `value_or_pointer` to `Addr`; an alloc entry
clears the allocator in-use flag word at `Addr` to 0 (false = free);
a free entry sets it to 1 (true = in use); each touching only the
indicated byte range. -/
theorem c2_replay_undo_semantics (le : LogEntry) (m : Mem) :
    (le.isStr = true → ∀ x, replayMem le m x =
        if le.addr ≤ x ∧ x < le.addr + le.size / 8
        then byteOfWord le.valueOrPtr (x - le.addr) else m x)
  ∧ ((le.isMemop = true ∨ le.isStrop = true) → ∀ x, replayMem le m x =
        if le.addr ≤ x ∧ x < le.addr + le.size
        then m (le.valueOrPtr + (x - le.addr)) else m x)
  ∧ (le.isAlloc = true → readWord (replayMem le m) le.addr = 0 ∧
        ∀ x, x < le.addr ∨ le.addr + 8 ≤ x → replayMem le m x = m x)
  ∧ (le.isFree = true → readWord (replayMem le m) le.addr = 1 ∧
        ∀ x, x < le.addr ∨ le.addr + 8 ≤ x → replayMem le m x = m x) := by
  refine ⟨?_, ?_, ?_, ?_⟩
  · intro h x
    rw [replayMem, if_pos h, writeBytes_spec, wordBytes_length]
    by_cases hin : le.addr ≤ x ∧ x < le.addr + le.size / 8
    · rw [if_pos hin, if_pos hin, wordBytes_getD _ _ _ (by omega)]
    · rw [if_neg hin, if_neg hin]
  · intro h x
    have hs : le.isStr = false := by
      rcases h with h | h <;> cases hty : le.typ <;>
        simp [LogEntry.isMemop, LogEntry.isStrop, LogEntry.isStr, hty] at h ⊢
    have hm : (le.isMemop || le.isStrop) = true := by
      rcases h with h | h <;> simp [h]
    rw [replayMem, if_neg (by simp [hs]), if_pos hm, writeBytes_spec, readBytes_length]
    by_cases hin : le.addr ≤ x ∧ x < le.addr + le.size
    · rw [if_pos hin, if_pos hin, readBytes_getD _ _ _ _ (by omega)]
    · rw [if_neg hin, if_neg hin]
  · intro h
    have hs : le.isStr = false := by
      cases hty : le.typ <;> simp [LogEntry.isAlloc, LogEntry.isStr, hty] at h ⊢
    have hmo : (le.isMemop || le.isStrop) = false := by
      cases hty : le.typ <;>
        simp [LogEntry.isAlloc, LogEntry.isMemop, LogEntry.isStrop, hty] at h ⊢
    have hrw : replayMem le m = writeBytes m le.addr (wordBytes 0 8) := by
      rw [replayMem, if_neg (by simp [hs]), if_neg (by simp [hmo]), if_pos h]
    refine ⟨?_, ?_⟩
    · rw [hrw, readWord_writeBytes_word m le.addr 0 (by omega)]
    · intro x hx
      rw [hrw, writeBytes_spec, wordBytes_length, if_neg (by omega)]
  · intro h
    have hs : le.isStr = false := by
      cases hty : le.typ <;> simp [LogEntry.isFree, LogEntry.isStr, hty] at h ⊢
    have hmo : (le.isMemop || le.isStrop) = false := by
      cases hty : le.typ <;>
        simp [LogEntry.isFree, LogEntry.isMemop, LogEntry.isStrop, hty] at h ⊢
    have hal : le.isAlloc = false := by
      cases hty : le.typ <;> simp [LogEntry.isFree, LogEntry.isAlloc, hty] at h ⊢
    have hrw : replayMem le m = writeBytes m le.addr (wordBytes 1 8) := by
      rw [replayMem, if_neg (by simp [hs]), if_neg (by simp [hmo]),
        if_neg (by simp [hal]), if_pos h]
    refine ⟨?_, ?_⟩
    · rw [hrw, readWord_writeBytes_word m le.addr 1 (by omega)]
    · intro x hx
      rw [hrw, writeBytes_spec, wordBytes_length, if_neg (by omega)]

/-- Witness for C2 at a concrete `str` entry, a concrete `memcpy` entry,
a concrete alloc entry and a concrete free entry. -/
theorem c2_replay_undo_semantics_witness :
    ((⟨1, 100, 64, 7, .str⟩ : LogEntry).isStr = true ∧
      replayMem ⟨1, 100, 64, 7, .str⟩ (fun _ => 3) 100 = 7) ∧
    ((⟨2, 100, 4, 200, .memcpy⟩ : LogEntry).isMemop = true ∧
      replayMem ⟨2, 100, 4, 200, .memcpy⟩ (fun x => x) 101 = 201) ∧
    ((⟨3, 40, 0, 0, .alloc⟩ : LogEntry).isAlloc = true ∧
      readWord (replayMem ⟨3, 40, 0, 0, .alloc⟩ (fun _ => 9)) 40 = 0) ∧
    ((⟨4, 40, 0, 0, .free⟩ : LogEntry).isFree = true ∧
      readWord (replayMem ⟨4, 40, 0, 0, .free⟩ (fun _ => 9)) 40 = 1) := by
  refine ⟨⟨rfl, ?_⟩, ⟨rfl, ?_⟩, ⟨rfl, ?_⟩, ⟨rfl, ?_⟩⟩
  · rw [(c2_replay_undo_semantics ⟨1, 100, 64, 7, .str⟩ (fun _ => 3)).1 rfl 100]
    decide
  · rw [(c2_replay_undo_semantics ⟨2, 100, 4, 200, .memcpy⟩ (fun x => x)).2.1
      (Or.inl rfl) 101]
    decide
  · exact ((c2_replay_undo_semantics ⟨3, 40, 0, 0, .alloc⟩ (fun _ => 9)).2.2.1 rfl).1
  · exact ((c2_replay_undo_semantics ⟨4, 40, 0, 0, .free⟩ (fun _ => 9)).2.2.2 rfl).1

/-! ## The recovery-visible log (recover.cpp)

A `LogState` is the content reachable from the `LogStructure` header:
one per-thread chain of log entries, listed in program order
(`lsp→Le` is the first entry written; `Next` points to the next-younger
entry, so `first_log_tracker` holds the list head and `last_log_tracker`
the list tail, and `prev_log_mapper` maps each entry to its program-order
predecessor, exactly as built by `CreateRelToAcqMappings`). -/

abbrev LogState : Type := List (List LogEntry)

def chain (L : LogState) (tid : Nat) : List LogEntry := L.getD tid []

def eids (c : List LogEntry) : List Nat := c.map (·.eid)

/-- Well-formedness of the recovery input: distinct entries have distinct
addresses (no entry pointer occurs twice across the chains). -/
def wfLog (L : LogState) : Prop := (eids L.flatten).Nodup

/-- Dereference an entry pointer (the recovery maps are keyed by
`LogEntry*`; here the pointer is the `eid`). -/
def entryOf (L : LogState) (x : Nat) : Option LogEntry :=
  L.flatten.find? (fun e => e.eid = x)

/-- Program-order predecessor within one chain (`prev_log_mapper`
restricted to that chain; the chain head has no predecessor, matching
`prev_log_mapper[head] = NULL`). -/
def prevInChain : List LogEntry → Nat → Option Nat
  | e1 :: e2 :: rest, x =>
    if e2.eid = x then some e1.eid else prevInChain (e2 :: rest) x
  | _, _ => none

/-- `GetPrevLogEntry`: the program-order predecessor of entry `x`. -/
def prevOf (L : LogState) (x : Nat) : Option Nat :=
  L.findSome? (fun c => prevInChain c x)

def firstEid (c : List LogEntry) : Option Nat := c.head?.map (·.eid)

def lastEid (c : List LogEntry) : Option Nat := c.getLast?.map (·.eid)

/-- `AddToMap` (recover.cpp lines 199-215): for an acquire/alloc/free
entry, insert the edge `(release it observed → (this entry, tid))` into
the release-to-acquire multimap — unless the observed release pointer is
NULL (`value_or_pointer == 0`), in which case nothing is inserted. -/
def AddToMap (m : List (Nat × Nat × Nat)) (acq : LogEntry) (tid : Nat) :
    List (Nat × Nat × Nat) :=
  if acq.valueOrPtr ≠ 0 then m ++ [(acq.valueOrPtr, acq.eid, tid)] else m

/-- The `map_r2a` multimap built by `CreateRelToAcqMappings`: every
acquire/alloc/free entry contributes via `AddToMap`, walking the threads
in order and each chain in program order. -/
def r2aOf (L : LogState) : List (Nat × Nat × Nat) :=
  L.enum.foldl
    (fun m tc =>
      tc.2.foldl
        (fun m e =>
          if e.isAcquire || e.isAlloc || e.isFree then AddToMap m e tc.1 else m)
        m)
    []

/-- `map_r2a.equal_range(le)`: the incoming acquire edges of release `x`,
in insertion order. -/
def edgesFor (L : LogState) (x : Nat) : List (Nat × Nat × Nat) :=
  (r2aOf L).filter (fun e => e.1 = x)

/-- The recovery driver's mutable state: the user memory being rewritten,
`last_log_tracker` (per-thread resume pointer, `none` = NULL),
`replayed_entries`, `done_threads`, and the list of entries passed to
`Replay` so far (the source keeps the count of these in
`replayed_count`; recording the entries themselves is the same
instrumentation, refined from a counter to a list). -/
structure RecState where
  mem : Mem
  lastLog : List (Nat × Option Nat)
  replayed : List Nat
  done : List Nat
  trace : List Nat

/-- `Replay(le)` followed by `++replayed_count`. -/
def Replay (le : LogEntry) (s : RecState) : RecState :=
  { s with mem := replayMem le s.mem, trace := le.eid :: s.trace }

/-- One pending activation of the mutually recursive recovery walk:
`thread tid` is `Recover(tid)`; `loop` is the `while (le)` body with the
current entry pointer `cur`; `advance` is the shared loop epilogue
(`if (le == stop_node) ...; le = GetPrevLogEntry(le)`); `edges` is the
`for` loop over the incoming acquires of a release. -/
inductive RCall where
  | thread (tid : Nat)
  | loop (tid stop : Nat) (cur : Option Nat)
  | advance (tid stop x : Nat)
  | edges (es : List (Nat × Nat × Nat))

/-- The recovery walk of recover.cpp (`Recover(int tid)`, lines 291-355),
as one fuel-indexed interpreter over the four activation shapes.  `none`
means the fuel ran out (the source recursion has no such bound; every
theorem below is conditional on termination within the given fuel). -/
def recGo (L : LogState) : Nat → RCall → RecState → Option RecState
  | 0, _, _ => none
  | Nat.succ f, .thread tid, s =>
    if s.done.contains tid then some s
    else
      match lookupA s.lastLog tid with
      | none => some s
      | some cur =>
        match firstEid (chain L tid) with
        | none => some s
        | some stop => recGo L f (.loop tid stop cur) s
  | Nat.succ _, .loop _ _ none, s => some s
  | Nat.succ f, .loop tid stop (some x), s =>
    match entryOf L x with
    | none => some s
    | some le =>
      if le.isRelease || le.isFree then
        let es := edgesFor L x
        let s1 := if es.isEmpty then s
          else { s with lastLog := updateA s.lastLog tid (prevOf L x) }
        match recGo L f (.edges es) s1 with
        | none => none
        | some s2 =>
          if le.isFree then
            let s3 := Replay le s2
            if s3.done.contains tid then some s3
            else recGo L f (.advance tid stop x)
                   { s3 with replayed := x :: s3.replayed }
          else recGo L f (.advance tid stop x) s2
      else if le.isAcquire || le.isAlloc then
        let s1 := if le.isAlloc then Replay le s else s
        if s1.done.contains tid then some s1
        else recGo L f (.advance tid stop x) { s1 with replayed := x :: s1.replayed }
      else if le.isStr || le.isMemset || le.isMemcpy || le.isMemmove ||
          le.isStrcpy || le.isStrcat then
        recGo L f (.advance tid stop x) (Replay le s)
      else recGo L f (.advance tid stop x) s
  | Nat.succ f, .advance tid stop x, s =>
    if x = stop then
      some { s with done := if s.done.contains tid then s.done else tid :: s.done }
    else recGo L f (.loop tid stop (prevOf L x)) s
  | Nat.succ _, .edges [], s => some s
  | Nat.succ f, .edges (e :: rest), s =>
    match (if s.replayed.contains e.2.1 then some s
           else recGo L f (.thread e.2.2) s) with
    | none => none
    | some s1 => recGo L f (.edges rest) s1

/-- The tids iterated by the top-level `Recover()`: the keys of
`last_log_tracker`, i.e. the threads with a nonempty chain, ascending. -/
def initTids (L : LogState) : List Nat :=
  (List.range L.length).filter (fun t => !(chain L t).isEmpty)

/-- Initial `last_log_tracker`. -/
def initTails (L : LogState) : List (Nat × Option Nat) :=
  (initTids L).map (fun t => (t, lastEid (chain L t)))

def initState (L : LogState) (m : Mem) : RecState :=
  { mem := m, lastLog := initTails L, replayed := [], done := [], trace := [] }

/-- The top-level `Recover()` loop over `last_log_tracker`. -/
def goThreads (L : LogState) (fuel : Nat) : List Nat → RecState → Option RecState
  | [], s => some s
  | tid :: rest, s =>
    match recGo L fuel (.thread tid) s with
    | none => none
    | some s1 => goThreads L fuel rest s1

/-- The whole recovery pass: build the trackers and maps from the log
(`CreateRelToAcqMappings`) and run `Recover()`. -/
def recoverAll (L : LogState) (fuel : Nat) (m : Mem) : Option RecState :=
  goThreads L fuel (initTids L) (initState L m)

/-! ## Auxiliary facts about chains, predecessors and suffixes -/

/-- Entries whose processing calls `Replay` (the entry types carrying an
undo action). -/
def needsUndo (e : LogEntry) : Bool :=
  e.isStr || e.isMemop || e.isStrop || e.isAlloc || e.isFree

/-- The part of a chain strictly younger (in program order) than entry `x`. -/
def suffixAfter : List LogEntry → Nat → List LogEntry
  | [], _ => []
  | e :: rest, x => if e.eid = x then rest else suffixAfter rest x

theorem suffixAfter_subset (c : List LogEntry) (x : Nat) :
    ∀ e ∈ suffixAfter c x, e ∈ c := by
  induction c with
  | nil => simp [suffixAfter]
  | cons a rest ih =>
    intro e he
    by_cases hax : a.eid = x
    · simp only [suffixAfter, hax, if_pos] at he
      exact List.mem_cons_of_mem _ he
    · simp only [suffixAfter, hax, if_neg, if_false] at he
      exact List.mem_cons_of_mem _ (ih e he)

theorem mem_chain_flatten (L : LogState) (tid : Nat) (e : LogEntry)
    (h : e ∈ chain L tid) : e ∈ L.flatten := by
  unfold chain at h
  rw [List.getD] at h
  rcases hget : L.get? tid with _ | c
  · rw [hget] at h
    simp at h
  · rw [hget] at h
    exact List.mem_flatten.mpr ⟨c, List.get?_mem hget, h⟩

theorem find_eid_of_mem (e : LogEntry) : ∀ (l : List LogEntry),
    (l.map (·.eid)).Nodup → e ∈ l →
    l.find? (fun e2 => e2.eid = e.eid) = some e
  | [], _, h => by simp at h
  | a :: rest, hnd, h => by
    rcases List.mem_cons.mp h with rfl | hmem
    · rw [List.find?_cons_of_pos]
      simp
    · have hane : ¬ (a.eid = e.eid) := by
        simp only [List.map_cons, List.nodup_cons] at hnd
        intro hcon
        exact hnd.1 (hcon ▸ List.mem_map_of_mem (·.eid) hmem)
      rw [List.find?_cons_of_neg _ (by simp [hane])]
      exact find_eid_of_mem e rest (by simp only [List.map_cons, List.nodup_cons] at hnd; exact hnd.2) hmem

theorem entryOf_of_mem (L : LogState) (hwf : wfLog L) (e : LogEntry)
    (h : e ∈ L.flatten) : entryOf L e.eid = some e := by
  unfold entryOf
  unfold wfLog eids at hwf
  exact find_eid_of_mem e L.flatten hwf h

theorem entryOf_eq_some (L : LogState) (x : Nat) (le : LogEntry)
    (h : entryOf L x = some le) : le ∈ L.flatten ∧ le.eid = x := by
  unfold entryOf at h
  refine ⟨List.mem_of_find?_eq_some h, ?_⟩
  have := List.find?_some h
  simpa using this

theorem prevInChain_of_not_mem : ∀ (c : List LogEntry) (x : Nat),
    x ∉ eids c → prevInChain c x = none
  | [], _, _ => rfl
  | [_], _, _ => rfl
  | e1 :: e2 :: rest, x, h => by
    have h2 : ¬ e2.eid = x := fun hc => h (by simp [eids, hc])
    rw [prevInChain, if_neg h2]
    exact prevInChain_of_not_mem (e2 :: rest) x
      (fun hm => by
        simp only [eids, List.map_cons, List.mem_cons] at h hm
        exact h (Or.inr hm))

theorem suffixAfter_cons_self (e : LogEntry) (rest : List LogEntry) :
    suffixAfter (e :: rest) e.eid = rest := by
  simp [suffixAfter]

theorem lastEid_mem : ∀ (c : List LogEntry) (T : Nat),
    lastEid c = some T → T ∈ eids c
  | [], _, h => by simp [lastEid] at h
  | [e], T, h => by
    simp [lastEid] at h
    simp [eids, h]
  | e1 :: e2 :: rest, T, h => by
    have h2 : lastEid (e2 :: rest) = some T := by
      simpa [lastEid, List.getLast?_cons_cons] using h
    have := lastEid_mem (e2 :: rest) T h2
    simp only [eids, List.map_cons, List.mem_cons] at this ⊢
    exact Or.inr this

theorem suffixAfter_last : ∀ (c : List LogEntry), (eids c).Nodup →
    ∀ T, lastEid c = some T → suffixAfter c T = []
  | [], _, _, h => by simp [lastEid] at h
  | [e], _, T, h => by
    simp [lastEid] at h
    simp [suffixAfter, h]
  | e1 :: e2 :: rest, hnd, T, h => by
    have h2 : lastEid (e2 :: rest) = some T := by
      simpa [lastEid, List.getLast?_cons_cons] using h
    have hTmem : T ∈ eids (e2 :: rest) := lastEid_mem _ _ h2
    have hne : ¬ (e1.eid = T) := by
      simp only [eids, List.map_cons, List.nodup_cons] at hnd
      intro hc
      exact hnd.1 (hc ▸ (by simpa [eids] using hTmem))
    rw [show suffixAfter (e1 :: e2 :: rest) T = suffixAfter (e2 :: rest) T by
      simp [suffixAfter, hne]]
    exact suffixAfter_last (e2 :: rest)
      (by simpa [eids] using (by simpa [eids] using hnd : (e1.eid :: eids (e2 :: rest)).Nodup).of_cons)
      T h2

theorem prev_suffix : ∀ (c : List LogEntry), (eids c).Nodup →
    ∀ x, x ∈ eids c → firstEid c ≠ some x →
    ∃ p xe, prevInChain c x = some p ∧ p ∈ eids c ∧ xe ∈ c ∧ xe.eid = x ∧
      suffixAfter c p = xe :: suffixAfter c x
  | [], _, x, hx, _ => by simp [eids] at hx
  | [e], _, x, hx, hf => by
    simp [eids] at hx
    exact absurd (by simp [firstEid, hx]) hf
  | e1 :: e2 :: rest, hnd, x, hx, hf => by
    have hne1 : ¬ (e1.eid = x) := by
      intro hc
      exact hf (by simp [firstEid, hc])
    by_cases h2 : e2.eid = x
    · refine ⟨e1.eid, e2, ?_, ?_, ?_, h2, ?_⟩
      · rw [prevInChain, if_pos h2]
      · simp [eids]
      · simp
      · rw [suffixAfter_cons_self]
        have : suffixAfter (e1 :: e2 :: rest) x = suffixAfter (e2 :: rest) x := by
          simp [suffixAfter, hne1]
        rw [this, show suffixAfter (e2 :: rest) x = rest by
          rw [← h2]; exact suffixAfter_cons_self e2 rest]
    · have hxtail : x ∈ eids (e2 :: rest) := by
        simp only [eids, List.map_cons, List.mem_cons] at hx ⊢
        rcases hx with hx | hx
        · exact absurd hx (fun hc => hne1 hc.symm)
        · exact hx
      have hndtail : (eids (e2 :: rest)).Nodup := by
        have : (e1.eid :: eids (e2 :: rest)).Nodup := by simpa [eids] using hnd
        exact this.of_cons
      have hftail : firstEid (e2 :: rest) ≠ some x := by
        simp [firstEid, h2]
      obtain ⟨p, xe, hprev, hpmem, hxemem, hxeeid, hsfx⟩ :=
        prev_suffix (e2 :: rest) hndtail x hxtail hftail
      have hne1p : ¬ (e1.eid = p) := by
        have : (e1.eid :: eids (e2 :: rest)).Nodup := by simpa [eids] using hnd
        intro hc
        exact (List.nodup_cons.mp this).1 (hc ▸ hpmem)
      refine ⟨p, xe, ?_, ?_, List.mem_cons_of_mem _ hxemem, hxeeid, ?_⟩
      · rw [prevInChain, if_neg h2]
        exact hprev
      · simp only [eids, List.map_cons, List.mem_cons]
        exact Or.inr (by simpa [eids] using hpmem)
      · rw [show suffixAfter (e1 :: e2 :: rest) p = suffixAfter (e2 :: rest) p by
          simp [suffixAfter, hne1p],
          show suffixAfter (e1 :: e2 :: rest) x = suffixAfter (e2 :: rest) x by
          simp [suffixAfter, hne1]]
        exact hsfx

theorem prevInChain_none_head (c : List LogEntry) (hnd : (eids c).Nodup)
    (x : Nat) (hx : x ∈ eids c) (h : prevInChain c x = none) :
    firstEid c = some x := by
  by_contra hne
  obtain ⟨p, _, hprev, _⟩ := prev_suffix c hnd x hx hne
  rw [h] at hprev
  exact Option.noConfusion hprev

/-- The chains of a well-formed log have pairwise distinct entries, so
`GetPrevLogEntry` applied to an entry of `chain L tid` answers within
that chain. -/
theorem prevOf_chain : ∀ (L : LogState), wfLog L →
    ∀ (c : List LogEntry), c ∈ L → ∀ x, x ∈ eids c →
    prevOf L x = prevInChain c x
  | [], _, c, hc, _, _ => by simp at hc
  | c0 :: Lrest, hwf, c, hc, x, hx => by
    have hsplit : (eids c0 ++ eids Lrest.flatten).Nodup := by
      simpa [wfLog, eids] using hwf
    rcases List.mem_cons.mp hc with rfl | hc'
    · rw [prevOf, List.findSome?_cons]
      rcases hpc : prevInChain c x with _ | p
      · have hnot : ∀ c' ∈ Lrest, prevInChain c' x = none := by
          intro c' hc'
          apply prevInChain_of_not_mem
          intro hxc'
          have hx2 : x ∈ eids Lrest.flatten :=
            (by
              simp only [eids, List.mem_map] at hxc' ⊢
              obtain ⟨e, he, rfl⟩ := hxc'
              exact ⟨e, List.mem_flatten.mpr ⟨c', hc', he⟩, rfl⟩)
          exact (List.disjoint_of_nodup_append hsplit) hx hx2
        have : Lrest.findSome? (fun c' => prevInChain c' x) = none := by
          rw [List.findSome?_eq_none_iff]
          intro c' hc'
          rw [hnot c' hc']
        simp [this]
      · simp
    · have hx2 : x ∈ eids Lrest.flatten := by
        simp only [eids, List.mem_map] at hx ⊢
        obtain ⟨e, he, rfl⟩ := hx
        exact ⟨e, List.mem_flatten.mpr ⟨c, hc', he⟩, rfl⟩
      have hxnot : x ∉ eids c0 :=
        fun hcon => (List.disjoint_of_nodup_append hsplit) hcon hx2
      rw [prevOf, List.findSome?_cons, prevInChain_of_not_mem c0 x hxnot]
      exact prevOf_chain Lrest (by
        simpa [wfLog, eids] using hsplit.of_append_right) c hc' x hx

theorem containsNat (l : List Nat) (x : Nat) : l.contains x = true ↔ x ∈ l := by
  simp [List.elem_iff]

/-! ## Invariants of the recovery walk

`UndoneE P s es` says every entry of `es` that carries an undo action has
had it applied (is in the `Replay` trace), except possibly the entries in
`P` — the frees whose enclosing loop iteration is currently suspended in
its release-to-acquire recursion and will apply the undo on resumption.
`Cov` is the per-thread coverage: a done thread is fully undone; a live
thread is undone strictly above its `last_log_tracker` resume point. -/

def RSub (s s1 : RecState) : Prop :=
  (∀ x ∈ s.trace, x ∈ s1.trace) ∧ (∀ t ∈ s.done, t ∈ s1.done)

theorem RSub.refl (s : RecState) : RSub s s := ⟨fun _ h => h, fun _ h => h⟩

theorem RSub.trans {s1 s2 s3 : RecState} (h1 : RSub s1 s2) (h2 : RSub s2 s3) :
    RSub s1 s3 :=
  ⟨fun x hx => h2.1 x (h1.1 x hx), fun t ht => h2.2 t (h1.2 t ht)⟩

def UndoneE (P : List Nat) (s : RecState) (es : List LogEntry) : Prop :=
  ∀ e ∈ es, needsUndo e = true → e.eid ∈ s.trace ∨ e.eid ∈ P

theorem UndoneE.mono {P : List Nat} {s s1 : RecState} {es : List LogEntry}
    (h : UndoneE P s es) (hs : RSub s s1) : UndoneE P s1 es := by
  intro e he hu
  rcases h e he hu with h1 | h1
  · exact Or.inl (hs.1 _ h1)
  · exact Or.inr h1

theorem UndoneE.weakenU {P P1 : List Nat} {s : RecState} {es : List LogEntry}
    (h : UndoneE P s es) (hp : ∀ y ∈ P, y ∈ P1) : UndoneE P1 s es := by
  intro e he hu
  rcases h e he hu with h1 | h1
  · exact Or.inl h1
  · exact Or.inr (hp _ h1)

theorem UndoneE.dischargeU {x : Nat} {P : List Nat} {s : RecState}
    {es : List LogEntry} (h : UndoneE (x :: P) s es) (hx : x ∈ s.trace) :
    UndoneE P s es := by
  intro e he hu
  rcases h e he hu with h1 | h1
  · exact Or.inl h1
  · rcases List.mem_cons.mp h1 with rfl | h1
    · exact Or.inl hx
    · exact Or.inr h1

def Cov (L : LogState) (P : List Nat) (s : RecState) (tid : Nat) : Prop :=
  if tid ∈ s.done then UndoneE P s (chain L tid)
  else
    match lookupA s.lastLog tid with
    | none => chain L tid = []
    | some none => UndoneE P s (chain L tid)
    | some (some T) =>
        T ∈ eids (chain L tid) ∧ UndoneE P s (suffixAfter (chain L tid) T)

def RelInv (L : LogState) (P : List Nat) (s : RecState) : Prop :=
  ∀ tid, Cov L P s tid

/-- Growing the trace (and anything that keeps `done` and `lastLog`
unchanged) preserves coverage. -/
theorem Cov.traceMonoC {L : LogState} {P : List Nat} {s s1 : RecState}
    {tid : Nat} (h : Cov L P s tid) (hd : s1.done = s.done)
    (hl : s1.lastLog = s.lastLog) (ht : ∀ y ∈ s.trace, y ∈ s1.trace) :
    Cov L P s1 tid := by
  have hsub : RSub s s1 := ⟨ht, fun t h2 => hd ▸ h2⟩
  unfold Cov at h ⊢
  rw [hd, hl]
  by_cases hdone : tid ∈ s.done
  · rw [if_pos hdone] at h ⊢
    exact h.mono hsub
  · rw [if_neg hdone] at h ⊢
    rcases hlk : lookupA s.lastLog tid with _ | cur
    · rw [hlk] at h; exact h
    · rw [hlk] at h
      rcases cur with _ | T
      · exact h.mono hsub
      · exact ⟨h.1, h.2.mono hsub⟩

theorem RelInv.traceMonoR {L : LogState} {P : List Nat} {s s1 : RecState}
    (h : RelInv L P s) (hd : s1.done = s.done) (hl : s1.lastLog = s.lastLog)
    (ht : ∀ y ∈ s.trace, y ∈ s1.trace) : RelInv L P s1 :=
  fun tid => (h tid).traceMonoC hd hl ht

theorem Cov.weakenC {L : LogState} {P P1 : List Nat} {s : RecState} {tid : Nat}
    (h : Cov L P s tid) (hp : ∀ y ∈ P, y ∈ P1) : Cov L P1 s tid := by
  unfold Cov at h ⊢
  by_cases hdone : tid ∈ s.done
  · rw [if_pos hdone] at h ⊢; exact h.weakenU hp
  · rw [if_neg hdone] at h ⊢
    rcases hlk : lookupA s.lastLog tid with _ | cur
    · rw [hlk] at h; exact h
    · rw [hlk] at h
      rcases cur with _ | T
      · exact h.weakenU hp
      · exact ⟨h.1, h.2.weakenU hp⟩

theorem RelInv.weakenR {L : LogState} {P P1 : List Nat} {s : RecState}
    (h : RelInv L P s) (hp : ∀ y ∈ P, y ∈ P1) : RelInv L P1 s :=
  fun tid => (h tid).weakenC hp

theorem Cov.dischargeC {L : LogState} {x : Nat} {P : List Nat} {s : RecState}
    {tid : Nat} (h : Cov L (x :: P) s tid) (hx : x ∈ s.trace) :
    Cov L P s tid := by
  unfold Cov at h ⊢
  by_cases hdone : tid ∈ s.done
  · rw [if_pos hdone] at h ⊢; exact h.dischargeU hx
  · rw [if_neg hdone] at h ⊢
    rcases hlk : lookupA s.lastLog tid with _ | cur
    · rw [hlk] at h; exact h
    · rw [hlk] at h
      rcases cur with _ | T
      · exact h.dischargeU hx
      · exact ⟨h.1, h.2.dischargeU hx⟩

theorem RelInv.dischargeR {L : LogState} {x : Nat} {P : List Nat} {s : RecState}
    (h : RelInv L (x :: P) s) (hx : x ∈ s.trace) : RelInv L P s :=
  fun tid => (h tid).dischargeC hx

/-- Inserting `tid` into `done_threads` preserves the invariant once the
whole chain of `tid` is covered. -/
theorem RelInv.insertDone {L : LogState} {P : List Nat} {s : RecState}
    {tid : Nat} (h : RelInv L P s) (hu : UndoneE P s (chain L tid)) :
    RelInv L P { s with done := tid :: s.done } := by
  intro tid2
  have h2 := h tid2
  unfold Cov at h2 ⊢
  by_cases heq : tid2 = tid
  · subst heq
    rw [if_pos (by simp)]
    exact hu
  · simp only [List.mem_cons]
    by_cases hdone : tid2 ∈ s.done
    · rw [if_pos (Or.inr hdone)]
      rw [if_pos hdone] at h2
      exact h2
    · rw [if_neg (by rintro (hc | hc); exact heq hc; exact hdone hc)]
      rw [if_neg hdone] at h2
      exact h2

theorem chain_mem (L : LogState) (tid : Nat) (h : chain L tid ≠ []) :
    chain L tid ∈ L := by
  by_cases hlt : tid < L.length
  · unfold chain
    rw [List.getD_eq_getElem L [] hlt]
    exact List.getElem_mem hlt
  · exfalso
    apply h
    unfold chain
    exact List.getD_eq_default L [] (by omega)

theorem mem_sublist_flatten : ∀ (L : List (List LogEntry)) (c : List LogEntry),
    c ∈ L → List.Sublist c L.flatten
  | [], _, hc => by simp at hc
  | c0 :: rest, c, hc => by
    rcases List.mem_cons.mp hc with rfl | hc2
    · simp only [List.flatten_cons]
      exact List.sublist_append_left c rest.flatten
    · exact (mem_sublist_flatten rest c hc2).trans
        (by simp only [List.flatten_cons]
            exact List.sublist_append_right c0 rest.flatten)

theorem chain_nodup (L : LogState) (hwf : wfLog L) (tid : Nat) :
    (eids (chain L tid)).Nodup := by
  by_cases h : chain L tid = []
  · simp [h, eids]
  · have hmem := chain_mem L tid h
    have hsub := (mem_sublist_flatten L (chain L tid) hmem).map (·.eid)
    exact hsub.nodup hwf

theorem eid_inj {c : List LogEntry} (hnd : (eids c).Nodup) {a b : LogEntry}
    (ha : a ∈ c) (hb : b ∈ c) (he : a.eid = b.eid) : a = b :=
  List.inj_on_of_nodup_map hnd ha hb he

theorem prevInChain_head (e : LogEntry) (rest : List LogEntry)
    (hnd : (eids (e :: rest)).Nodup) : prevInChain (e :: rest) e.eid = none := by
  match rest with
  | [] => rfl
  | b :: rest2 =>
    have hmemnot : e.eid ∉ eids (b :: rest2) := by
      simp only [eids, List.map_cons, List.nodup_cons] at hnd
      exact fun hc => hnd.1 (by simpa [eids] using hc)
    have hb : ¬ (b.eid = e.eid) := by
      intro hc
      exact hmemnot (by simp [eids, hc])
    rw [prevInChain, if_neg hb]
    exact prevInChain_of_not_mem _ _ hmemnot

theorem prevInChain_some_suffix (c : List LogEntry) (hnd : (eids c).Nodup)
    (x p : Nat) (hx : x ∈ eids c) (hp : prevInChain c x = some p) :
    p ∈ eids c ∧ ∃ xe ∈ c, xe.eid = x ∧
      suffixAfter c p = xe :: suffixAfter c x := by
  by_cases hf : firstEid c = some x
  · exfalso
    match c, hf with
    | e :: rest, hf =>
      have : e.eid = x := by simpa [firstEid] using hf
      rw [← this] at hp
      rw [prevInChain_head e rest hnd] at hp
      exact Option.noConfusion hp
  · obtain ⟨p2, xe, hprev, hpmem, hxemem, hxeeid, hsfx⟩ :=
      prev_suffix c hnd x hx hf
    rw [hp] at hprev
    obtain rfl : p2 = p := Option.some.inj hprev.symm
    exact ⟨hpmem, xe, hxemem, hxeeid, hsfx⟩

theorem firstEid_shape (c : List LogEntry) (stop : Nat)
    (h : firstEid c = some stop) :
    ∃ e rest, c = e :: rest ∧ e.eid = stop := by
  match c with
  | [] => simp [firstEid] at h
  | e :: rest => exact ⟨e, rest, rfl, by simpa [firstEid] using h⟩

/-- Updating the current thread's `last_log_tracker` slot to the
predecessor of the entry being processed preserves the invariant,
provided the entry itself either needs no undo or is excepted in `P`. -/
theorem RelInv.setTail {L : LogState} {P : List Nat} {s : RecState}
    {tid x : Nat} {xe : LogEntry} (hwf : wfLog L) (h : RelInv L P s)
    (hxe : xe ∈ chain L tid) (hx : xe.eid = x)
    (hP : needsUndo xe = true → x ∈ P)
    (hsfx : UndoneE P s (suffixAfter (chain L tid) x)) :
    RelInv L P { s with lastLog := updateA s.lastLog tid (prevOf L x) } := by
  intro tid2
  have h2 := h tid2
  by_cases heq : tid2 = tid
  · subst heq
    unfold Cov at h2 ⊢
    by_cases hdone : tid2 ∈ s.done
    · rw [if_pos hdone] at h2 ⊢
      exact h2
    · rw [if_neg hdone] at h2 ⊢
      have hchne : chain L tid2 ≠ [] := by
        intro hc
        rw [hc] at hxe
        exact absurd hxe (List.not_mem_nil xe)
      have hlsome : (lookupA s.lastLog tid2).isSome := by
        rcases hlk : lookupA s.lastLog tid2 with _ | cur
        · rw [hlk] at h2; exact absurd h2 hchne
        · rfl
      rw [show lookupA (updateA s.lastLog tid2 (prevOf L x)) tid2
            = some (prevOf L x) from lookupA_updateA_self _ _ _ hlsome]
      have hnd := chain_nodup L hwf tid2
      have hxeids : x ∈ eids (chain L tid2) := by
        rw [← hx]; exact List.mem_map_of_mem (·.eid) hxe
      have hpc : prevOf L x = prevInChain (chain L tid2) x :=
        prevOf_chain L hwf (chain L tid2) (chain_mem L tid2 hchne) x hxeids
      rcases hprev : prevOf L x with _ | p
      · have hpnone : prevInChain (chain L tid2) x = none := by
          rw [← hpc, hprev]
        have hfirst : firstEid (chain L tid2) = some x :=
          prevInChain_none_head _ hnd x hxeids hpnone
        obtain ⟨e, rest, hcshape, heeid⟩ := firstEid_shape _ _ hfirst
        intro e2 he2 hu
        rw [hcshape] at he2
        rcases List.mem_cons.mp he2 with rfl | he2
        · have he2xe : e2 = xe :=
            eid_inj hnd (by rw [hcshape]; exact List.mem_cons_self e2 rest) hxe
              (by rw [heeid, hx])
          refine Or.inr ?_
          rw [he2xe, hx]
          exact hP (he2xe ▸ hu)
        · apply hsfx e2 _ hu
          rw [hcshape, ← heeid, suffixAfter_cons_self]
          exact he2
      · have hps : prevInChain (chain L tid2) x = some p := by
          rw [← hpc, hprev]
        obtain ⟨hpmem, xe2, hxe2mem, hxe2eid, hsfx2⟩ :=
          prevInChain_some_suffix _ hnd x p hxeids hps
        refine ⟨hpmem, ?_⟩
        rw [hsfx2]
        intro e2 he2 hu
        rcases List.mem_cons.mp he2 with rfl | he2
        · have he2xe : e2 = xe := eid_inj hnd hxe2mem hxe (by rw [hxe2eid, hx])
          refine Or.inr ?_
          rw [he2xe, hx]
          exact hP (he2xe ▸ hu)
        · exact hsfx e2 he2 hu
  · unfold Cov at h2 ⊢
    rw [show lookupA (updateA s.lastLog tid (prevOf L x)) tid2
          = lookupA s.lastLog tid2 from lookupA_updateA_ne _ _ _ _ heq]
    exact h2

theorem needsUndo_of_release (e : LogEntry) (h : e.isRelease = true) :
    needsUndo e = false := by
  cases hty : e.typ <;>
    simp [LogEntry.isRelease, needsUndo, LogEntry.isStr, LogEntry.isMemop,
      LogEntry.isStrop, LogEntry.isAlloc, LogEntry.isFree, hty] at h ⊢

theorem needsUndo_of_acquire (e : LogEntry) (h : e.isAcquire = true) :
    needsUndo e = false := by
  cases hty : e.typ <;>
    simp [LogEntry.isAcquire, needsUndo, LogEntry.isStr, LogEntry.isMemop,
      LogEntry.isStrop, LogEntry.isAlloc, LogEntry.isFree, hty] at h ⊢

theorem needsUndo_of_none (e : LogEntry)
    (h1 : (e.isRelease || e.isFree) = false)
    (h2 : (e.isAcquire || e.isAlloc) = false)
    (h3 : (e.isStr || e.isMemset || e.isMemcpy || e.isMemmove ||
      e.isStrcpy || e.isStrcat) = false) : needsUndo e = false := by
  cases hty : e.typ <;>
    simp [LogEntry.isRelease, LogEntry.isAcquire, needsUndo, LogEntry.isStr,
      LogEntry.isMemop, LogEntry.isStrop, LogEntry.isAlloc, LogEntry.isFree,
      LogEntry.isMemset, LogEntry.isMemcpy, LogEntry.isMemmove,
      LogEntry.isStrcpy, LogEntry.isStrcat, hty] at h1 h2 h3 ⊢

/-! ## Partial correctness of the recovery walk -/

/-- Precondition of each activation: the loop and the epilogue know the
stop node is the chain head, the current entry is in the chain, and the
chain is already undone strictly above the current entry. -/
def callPre (L : LogState) (P : List Nat) (s : RecState) : RCall → Prop
  | .thread _ => True
  | .loop tid stop cur =>
      firstEid (chain L tid) = some stop ∧
      (match cur with
       | none => UndoneE P s (chain L tid)
       | some x => x ∈ eids (chain L tid) ∧
           UndoneE P s (suffixAfter (chain L tid) x))
  | .advance tid stop x =>
      firstEid (chain L tid) = some stop ∧ x ∈ eids (chain L tid) ∧
      UndoneE P s (suffixAfter (chain L tid) x) ∧
      (∀ e, entryOf L x = some e → needsUndo e = true → x ∈ s.trace)
  | .edges _ => True

/-- Postcondition: a completed `Recover(tid)` call (and its loop) leaves
the whole chain of `tid` undone up to the pending exceptions `P`. -/
def callPost (L : LogState) (P : List Nat) (s1 : RecState) : RCall → Prop
  | .thread tid => UndoneE P s1 (chain L tid)
  | .loop tid _ _ => UndoneE P s1 (chain L tid)
  | .advance tid _ _ => UndoneE P s1 (chain L tid)
  | .edges _ => True

theorem recGo_spec (L : LogState) (hwf : wfLog L) :
    ∀ (fuel : Nat) (c : RCall) (s s1 : RecState) (P : List Nat),
      recGo L fuel c s = some s1 → RelInv L P s → callPre L P s c →
      RelInv L P s1 ∧ RSub s s1 ∧ callPost L P s1 c := by
  intro fuel
  induction fuel with
  | zero =>
    intro c s s1 P h
    simp [recGo] at h
  | succ f ih =>
    intro c s s1 P hrun hinv hpre
    cases c with
    | thread tid =>
      simp only [recGo] at hrun
      by_cases hdone : s.done.contains tid = true
      · rw [if_pos hdone] at hrun
        obtain rfl : s = s1 := Option.some.inj hrun
        refine ⟨hinv, RSub.refl s, ?_⟩
        have hc := hinv tid
        unfold Cov at hc
        rw [if_pos ((containsNat _ _).mp hdone)] at hc
        exact hc
      · rw [if_neg hdone] at hrun
        have hnotdone : tid ∉ s.done :=
          fun hm => hdone ((containsNat _ _).mpr hm)
        have hc := hinv tid
        unfold Cov at hc
        rw [if_neg hnotdone] at hc
        rcases hlk : lookupA s.lastLog tid with _ | cur
        · rw [hlk] at hrun hc
          obtain rfl : s = s1 := Option.some.inj hrun
          refine ⟨hinv, RSub.refl s, ?_⟩
          show UndoneE P s (chain L tid)
          rw [hc]
          intro e he
          exact absurd he (List.not_mem_nil e)
        · rw [hlk] at hrun hc
          rcases hfst : firstEid (chain L tid) with _ | stop
          · rw [hfst] at hrun
            obtain rfl : s = s1 := Option.some.inj hrun
            have hcnil : chain L tid = [] := by
              rcases hcc : chain L tid with _ | ⟨e, rest⟩
              · rfl
              · rw [hcc] at hfst
                simp [firstEid] at hfst
            refine ⟨hinv, RSub.refl s, ?_⟩
            show UndoneE P s (chain L tid)
            rw [hcnil]
            intro e he
            exact absurd he (List.not_mem_nil e)
          · rw [hfst] at hrun
            have hpre2 : callPre L P s (.loop tid stop cur) := by
              refine ⟨hfst, ?_⟩
              rcases cur with _ | x
              · exact hc
              · exact hc
            exact ih (.loop tid stop cur) s s1 P hrun hinv hpre2
    | loop tid stop cur =>
      rcases cur with _ | x
      · simp only [recGo] at hrun
        obtain rfl : s = s1 := Option.some.inj hrun
        exact ⟨hinv, RSub.refl s, hpre.2⟩
      · obtain ⟨hfst, hx, hsfx⟩ := hpre
        obtain ⟨xe, hxe, hxeid⟩ := List.mem_map.mp hx
        have hEof : entryOf L x = some xe := by
          rw [← hxeid]
          exact entryOf_of_mem L hwf xe (mem_chain_flatten L tid xe hxe)
        simp only [recGo] at hrun
        rw [hEof] at hrun
        simp only at hrun
        by_cases hrel : (xe.isRelease || xe.isFree) = true
        · rw [if_pos hrel] at hrun
          have hsubTail : RSub s (if (edgesFor L x).isEmpty then s
              else { s with lastLog := updateA s.lastLog tid (prevOf L x) }) := by
            by_cases hemp : (edgesFor L x).isEmpty
            · rw [if_pos hemp]; exact RSub.refl s
            · rw [if_neg hemp]; exact ⟨fun _ h => h, fun _ h => h⟩
          by_cases hfree : xe.isFree = true
          · -- free entry: the pending exception is x itself
            have hinvTail : RelInv L (x :: P)
                (if (edgesFor L x).isEmpty then s
                 else { s with lastLog := updateA s.lastLog tid (prevOf L x) }) := by
              by_cases hemp : (edgesFor L x).isEmpty
              · rw [if_pos hemp]
                exact hinv.weakenR (fun y hy => List.mem_cons_of_mem x hy)
              · rw [if_neg hemp]
                exact RelInv.setTail hwf
                  (hinv.weakenR (fun y hy => List.mem_cons_of_mem x hy)) hxe hxeid
                  (fun _ => by rw [← hxeid]; exact List.mem_cons_self xe.eid P)
                  (hsfx.weakenU (fun y hy => List.mem_cons_of_mem x hy))
            rcases hed : recGo L f (.edges (edgesFor L x))
                (if (edgesFor L x).isEmpty then s
                 else { s with lastLog := updateA s.lastLog tid (prevOf L x) })
              with _ | s2
            · rw [hed] at hrun
              exact Option.noConfusion hrun
            · rw [hed] at hrun
              simp only at hrun
              obtain ⟨hinv2, hsub2, -⟩ :=
                ih (.edges (edgesFor L x)) _ s2 (x :: P) hed hinvTail trivial
              rw [if_pos hfree] at hrun
              have hxtr3 : x ∈ (Replay xe s2).trace := by
                show x ∈ xe.eid :: s2.trace
                rw [hxeid]
                exact List.mem_cons_self x s2.trace
              have hinv3 : RelInv L (x :: P) (Replay xe s2) :=
                hinv2.traceMonoR rfl rfl
                  (fun y hy => List.mem_cons_of_mem xe.eid hy)
              have hinv3P : RelInv L P (Replay xe s2) := hinv3.dischargeR hxtr3
              have hsub3 : RSub s (Replay xe s2) :=
                (hsubTail.trans hsub2).trans
                  ⟨fun y hy => List.mem_cons_of_mem xe.eid hy, fun _ h => h⟩
              by_cases hd3 : (Replay xe s2).done.contains tid = true
              · rw [if_pos hd3] at hrun
                obtain rfl : Replay xe s2 = s1 := Option.some.inj hrun
                refine ⟨hinv3P, hsub3, ?_⟩
                have hc := hinv3P tid
                unfold Cov at hc
                rw [if_pos ((containsNat _ _).mp hd3)] at hc
                exact hc
              · rw [if_neg hd3] at hrun
                have hinv4 : RelInv L P
                    { Replay xe s2 with replayed := x :: (Replay xe s2).replayed } :=
                  hinv3P.traceMonoR rfl rfl (fun y hy => hy)
                have hpre4 : callPre L P
                    { Replay xe s2 with replayed := x :: (Replay xe s2).replayed }
                    (.advance tid stop x) := by
                  refine ⟨hfst, hx, hsfx.mono hsub3, fun e _ _ => hxtr3⟩
                obtain ⟨hinv5, hsub5, hpost5⟩ :=
                  ih (.advance tid stop x) _ s1 P hrun hinv4 hpre4
                exact ⟨hinv5, hsub3.trans hsub5, hpost5⟩
          · -- release entry (no undo action of its own)
            have hinvTail : RelInv L P
                (if (edgesFor L x).isEmpty then s
                 else { s with lastLog := updateA s.lastLog tid (prevOf L x) }) := by
              by_cases hemp : (edgesFor L x).isEmpty
              · rw [if_pos hemp]; exact hinv
              · rw [if_neg hemp]
                have hisrel : xe.isRelease = true := by
                  rcases Bool.or_eq_true_iff.mp hrel with h | h
                  · exact h
                  · exact absurd h (by simp [hfree])
                exact RelInv.setTail hwf hinv hxe hxeid
                  (fun hc => absurd hc (by simp [needsUndo_of_release xe hisrel]))
                  hsfx
            rcases hed : recGo L f (.edges (edgesFor L x))
                (if (edgesFor L x).isEmpty then s
                 else { s with lastLog := updateA s.lastLog tid (prevOf L x) })
              with _ | s2
            · rw [hed] at hrun
              exact Option.noConfusion hrun
            · rw [hed] at hrun
              simp only at hrun
              obtain ⟨hinv2, hsub2, -⟩ :=
                ih (.edges (edgesFor L x)) _ s2 P hed hinvTail trivial
              rw [if_neg hfree] at hrun
              have hisrel : xe.isRelease = true := by
                rcases Bool.or_eq_true_iff.mp hrel with h | h
                · exact h
                · exact absurd h (by simp [hfree])
              have hsub2' : RSub s s2 := hsubTail.trans hsub2
              have hpre4 : callPre L P s2 (.advance tid stop x) := by
                refine ⟨hfst, hx, hsfx.mono hsub2', fun e he hu => ?_⟩
                rw [hEof] at he
                obtain rfl : xe = e := Option.some.inj he
                rw [needsUndo_of_release xe hisrel] at hu
                exact Bool.noConfusion hu
              obtain ⟨hinv5, hsub5, hpost5⟩ :=
                ih (.advance tid stop x) s2 s1 P hrun hinv2 hpre4
              exact ⟨hinv5, hsub2'.trans hsub5, hpost5⟩
        · rw [if_neg hrel] at hrun
          by_cases hacq : (xe.isAcquire || xe.isAlloc) = true
          · rw [if_pos hacq] at hrun
            by_cases halloc : xe.isAlloc = true
            · rw [if_pos halloc] at hrun
              have hxtr1 : x ∈ (Replay xe s).trace := by
                show x ∈ xe.eid :: s.trace
                rw [hxeid]
                exact List.mem_cons_self x s.trace
              have hinv1 : RelInv L P (Replay xe s) :=
                hinv.traceMonoR rfl rfl (fun y hy => List.mem_cons_of_mem xe.eid hy)
              have hsub1 : RSub s (Replay xe s) :=
                ⟨fun y hy => List.mem_cons_of_mem xe.eid hy, fun _ h => h⟩
              by_cases hd1 : (Replay xe s).done.contains tid = true
              · rw [if_pos hd1] at hrun
                obtain rfl : Replay xe s = s1 := Option.some.inj hrun
                refine ⟨hinv1, hsub1, ?_⟩
                have hc := hinv1 tid
                unfold Cov at hc
                rw [if_pos ((containsNat _ _).mp hd1)] at hc
                exact hc
              · rw [if_neg hd1] at hrun
                have hinv4 : RelInv L P
                    { Replay xe s with replayed := x :: (Replay xe s).replayed } :=
                  hinv1.traceMonoR rfl rfl (fun y hy => hy)
                have hpre4 : callPre L P
                    { Replay xe s with replayed := x :: (Replay xe s).replayed }
                    (.advance tid stop x) :=
                  ⟨hfst, hx, hsfx.mono hsub1, fun e _ _ => hxtr1⟩
                obtain ⟨hinv5, hsub5, hpost5⟩ :=
                  ih (.advance tid stop x) _ s1 P hrun hinv4 hpre4
                exact ⟨hinv5, hsub1.trans hsub5, hpost5⟩
            · rw [if_neg halloc] at hrun
              have hisacq : xe.isAcquire = true := by
                rcases Bool.or_eq_true_iff.mp hacq with h | h
                · exact h
                · exact absurd h (by simp [halloc])
              by_cases hd1 : s.done.contains tid = true
              · rw [if_pos hd1] at hrun
                obtain rfl : s = s1 := Option.some.inj hrun
                refine ⟨hinv, RSub.refl s, ?_⟩
                have hc := hinv tid
                unfold Cov at hc
                rw [if_pos ((containsNat _ _).mp hd1)] at hc
                exact hc
              · rw [if_neg hd1] at hrun
                have hinv4 : RelInv L P { s with replayed := x :: s.replayed } :=
                  hinv.traceMonoR rfl rfl (fun y hy => hy)
                have hpre4 : callPre L P { s with replayed := x :: s.replayed }
                    (.advance tid stop x) := by
                  refine ⟨hfst, hx, hsfx.mono (RSub.refl s), fun e he hu => ?_⟩
                  rw [hEof] at he
                  obtain rfl : xe = e := Option.some.inj he
                  rw [needsUndo_of_acquire xe hisacq] at hu
                  exact Bool.noConfusion hu
                obtain ⟨hinv5, hsub5, hpost5⟩ :=
                  ih (.advance tid stop x) _ s1 P hrun hinv4 hpre4
                exact ⟨hinv5, hsub5, hpost5⟩
          · rw [if_neg hacq] at hrun
            by_cases hdata : (xe.isStr || xe.isMemset || xe.isMemcpy ||
                xe.isMemmove || xe.isStrcpy || xe.isStrcat) = true
            · rw [if_pos hdata] at hrun
              have hxtr1 : x ∈ (Replay xe s).trace := by
                show x ∈ xe.eid :: s.trace
                rw [hxeid]
                exact List.mem_cons_self x s.trace
              have hinv1 : RelInv L P (Replay xe s) :=
                hinv.traceMonoR rfl rfl (fun y hy => List.mem_cons_of_mem xe.eid hy)
              have hsub1 : RSub s (Replay xe s) :=
                ⟨fun y hy => List.mem_cons_of_mem xe.eid hy, fun _ h => h⟩
              have hpre4 : callPre L P (Replay xe s) (.advance tid stop x) :=
                ⟨hfst, hx, hsfx.mono hsub1, fun e _ _ => hxtr1⟩
              obtain ⟨hinv5, hsub5, hpost5⟩ :=
                ih (.advance tid stop x) _ s1 P hrun hinv1 hpre4
              exact ⟨hinv5, hsub1.trans hsub5, hpost5⟩
            · rw [if_neg hdata] at hrun
              have hpre4 : callPre L P s (.advance tid stop x) := by
                refine ⟨hfst, hx, hsfx, fun e he hu => ?_⟩
                rw [hEof] at he
                obtain rfl : xe = e := Option.some.inj he
                rw [needsUndo_of_none xe (by simpa using hrel)
                  (by simpa using hacq) (by simpa using hdata)] at hu
                exact Bool.noConfusion hu
              exact ih (.advance tid stop x) s s1 P hrun hinv hpre4
    | advance tid stop x =>
      obtain ⟨hfst, hx, hsfx, hxtr⟩ := hpre
      simp only [recGo] at hrun
      by_cases hstop : x = stop
      · rw [if_pos hstop] at hrun
        obtain ⟨e, rest, hcshape, heeid⟩ := firstEid_shape _ _ hfst
        have hnd := chain_nodup L hwf tid
        have hwhole : UndoneE P s (chain L tid) := by
          intro e2 he2 hu
          rw [hcshape] at he2
          rcases List.mem_cons.mp he2 with rfl | he2
          · left
            have heidx : e2.eid = x := by rw [heeid, hstop]
            rw [heidx]
            apply hxtr e2 _ hu
            rw [← heidx]
            exact entryOf_of_mem L hwf e2
              (mem_chain_flatten L tid e2 (by rw [hcshape]; exact List.mem_cons_self e2 rest))
          · apply hsfx e2 _ hu
            rw [hcshape, ← show e.eid = x from by rw [heeid, hstop],
              suffixAfter_cons_self]
            exact he2
        by_cases hdc : s.done.contains tid = true
        · rw [if_pos hdc] at hrun
          obtain rfl : ({ s with done := s.done } : RecState) = s1 :=
            Option.some.inj hrun
          exact ⟨hinv, RSub.refl s, hwhole⟩
        · rw [if_neg hdc] at hrun
          obtain rfl : ({ s with done := tid :: s.done } : RecState) = s1 :=
            Option.some.inj hrun
          refine ⟨hinv.insertDone hwhole, ?_, ?_⟩
          · exact ⟨fun y hy => hy, fun t ht => List.mem_cons_of_mem tid ht⟩
          · exact hwhole.mono ⟨fun y hy => hy, fun t ht => List.mem_cons_of_mem tid ht⟩
      · rw [if_neg hstop] at hrun
        have hnd := chain_nodup L hwf tid
        have hfne : firstEid (chain L tid) ≠ some x := by
          rw [hfst]
          intro hc
          exact hstop (Option.some.inj hc).symm
        obtain ⟨p, xe, hprev, hpmem, hxemem, hxeeid, hsfx2⟩ :=
          prev_suffix _ hnd x hx hfne
        have hchne : chain L tid ≠ [] := by
          intro hc
          rw [hc] at hxemem
          exact absurd hxemem (List.not_mem_nil xe)
        have hpOf : prevOf L x = some p := by
          rw [prevOf_chain L hwf _ (chain_mem L tid hchne) x hx]
          exact hprev
        rw [hpOf] at hrun
        have hpre2 : callPre L P s (.loop tid stop (some p)) := by
          refine ⟨hfst, hpmem, ?_⟩
          rw [hsfx2]
          intro e2 he2 hu
          rcases List.mem_cons.mp he2 with rfl | he2
          · left
            rw [hxeeid]
            apply hxtr e2 _ hu
            rw [← hxeeid]
            exact entryOf_of_mem L hwf e2 (mem_chain_flatten L tid e2 hxemem)
          · exact hsfx e2 he2 hu
        exact ih (.loop tid stop (some p)) s s1 P hrun hinv hpre2
    | edges es =>
      rcases es with _ | ⟨e, rest⟩
      · simp only [recGo] at hrun
        obtain rfl : s = s1 := Option.some.inj hrun
        exact ⟨hinv, RSub.refl s, trivial⟩
      · simp only [recGo] at hrun
        by_cases hc : s.replayed.contains e.2.1 = true
        · rw [if_pos hc] at hrun
          obtain ⟨hinv2, hsub2, -⟩ :=
            ih (.edges rest) s s1 P hrun hinv trivial
          exact ⟨hinv2, hsub2, trivial⟩
        · rw [if_neg hc] at hrun
          rcases hstep : recGo L f (.thread e.2.2) s with _ | s2
          · rw [hstep] at hrun
            exact Option.noConfusion hrun
          · rw [hstep] at hrun
            simp only at hrun
            obtain ⟨hinv2, hsub2, -⟩ :=
              ih (.thread e.2.2) s s2 P hstep hinv trivial
            obtain ⟨hinv3, hsub3, -⟩ :=
              ih (.edges rest) s2 s1 P hrun hinv2 trivial
            exact ⟨hinv3, hsub2.trans hsub3, trivial⟩

/-- Thread `tid` has had every undo action of its chain applied: its
whole FASE content in the recovery-visible log is undone. -/
def fullyUndone (L : LogState) (s : RecState) (tid : Nat) : Prop :=
  ∀ e ∈ chain L tid, needsUndo e = true → e.eid ∈ s.trace

theorem lookupA_map_fun (f : Nat → Option Nat) :
    ∀ (ts : List Nat) (tid : Nat),
    lookupA (ts.map (fun t => (t, f t))) tid =
      if tid ∈ ts then some (f tid) else none
  | [], tid => by simp [lookupA]
  | t :: rest, tid => by
    by_cases ht : t = tid
    · subst ht
      simp [lookupA]
    · simp only [List.map_cons, lookupA, ht, if_false]
      rw [lookupA_map_fun f rest tid]
      by_cases hmem : tid ∈ rest
      · rw [if_pos hmem, if_pos (List.mem_cons_of_mem t hmem)]
      · rw [if_neg hmem, if_neg (by
          intro hc
          rcases List.mem_cons.mp hc with hc | hc
          · exact ht hc.symm
          · exact hmem hc)]

theorem chain_ne_nil_lt (L : LogState) (tid : Nat) (h : chain L tid ≠ []) :
    tid < L.length := by
  by_contra hge
  exact h (List.getD_eq_default L [] (by omega))

theorem mem_initTids (L : LogState) (tid : Nat) :
    tid ∈ initTids L ↔ chain L tid ≠ [] := by
  unfold initTids
  rw [List.mem_filter, List.mem_range]
  constructor
  · rintro ⟨-, hne⟩
    intro hc
    rw [hc] at hne
    simp at hne
  · intro hne
    refine ⟨chain_ne_nil_lt L tid hne, ?_⟩
    simp only [Bool.not_eq_eq_eq_not, Bool.not_true, List.isEmpty_eq_false]
    exact hne

theorem initState_inv (L : LogState) (hwf : wfLog L) (m : Mem) :
    RelInv L [] (initState L m) := by
  intro tid
  unfold Cov initState
  rw [if_neg (by intro h; exact absurd h (List.not_mem_nil tid))]
  show (match lookupA (initTails L) tid with
    | none => chain L tid = []
    | some none => UndoneE [] _ (chain L tid)
    | some (some T) =>
        T ∈ eids (chain L tid) ∧ UndoneE [] _ (suffixAfter (chain L tid) T))
  unfold initTails
  rw [lookupA_map_fun (fun t => lastEid (chain L t)) (initTids L) tid]
  by_cases hmem : tid ∈ initTids L
  · rw [if_pos hmem]
    have hne : chain L tid ≠ [] := (mem_initTids L tid).mp hmem
    rcases hgl : (chain L tid).getLast? with _ | last
    · exact absurd (List.getLast?_eq_none_iff.mp hgl) hne
    · have hlast : lastEid (chain L tid) = some last.eid := by
        unfold lastEid
        rw [hgl]
        rfl
      rw [hlast]
      refine ⟨lastEid_mem _ _ hlast, ?_⟩
      rw [suffixAfter_last _ (chain_nodup L hwf tid) _ hlast]
      intro e he
      exact absurd he (List.not_mem_nil e)
  · rw [if_neg hmem]
    by_contra hne
    exact hmem ((mem_initTids L tid).mpr hne)

theorem goThreads_spec (L : LogState) (hwf : wfLog L) :
    ∀ (ts : List Nat) (fuel : Nat) (s s1 : RecState),
    goThreads L fuel ts s = some s1 → RelInv L [] s →
    RelInv L [] s1 ∧ RSub s s1 ∧
      ∀ tid ∈ ts, UndoneE [] s1 (chain L tid)
  | [], fuel, s, s1, hrun, hinv => by
    obtain rfl : s = s1 := Option.some.inj hrun
    exact ⟨hinv, RSub.refl s, by intro tid h; exact absurd h (List.not_mem_nil tid)⟩
  | tid :: rest, fuel, s, s1, hrun, hinv => by
    simp only [goThreads] at hrun
    rcases hstep : recGo L fuel (.thread tid) s with _ | s2
    · rw [hstep] at hrun
      exact Option.noConfusion hrun
    · rw [hstep] at hrun
      simp only at hrun
      obtain ⟨hinv2, hsub2, hpost2⟩ :=
        recGo_spec L hwf fuel (.thread tid) s s2 [] hstep hinv trivial
      obtain ⟨hinv3, hsub3, hrest⟩ :=
        goThreads_spec L hwf rest fuel s2 s1 hrun hinv2
      refine ⟨hinv3, hsub2.trans hsub3, ?_⟩
      intro tid2 hmem
      rcases List.mem_cons.mp hmem with rfl | hmem
      · exact (hpost2 : UndoneE [] s2 (chain L tid2)).mono hsub3
      · exact hrest tid2 hmem

theorem recoverAll_undone (L : LogState) (hwf : wfLog L) (fuel : Nat)
    (m : Mem) (s1 : RecState) (hrun : recoverAll L fuel m = some s1) :
    ∀ tid, chain L tid ≠ [] → fullyUndone L s1 tid := by
  intro tid hne
  obtain ⟨-, -, hall⟩ :=
    goThreads_spec L hwf (initTids L) fuel (initState L m) s1 hrun
      (initState_inv L hwf m)
  have h := hall tid ((mem_initTids L tid).mpr hne)
  intro e he hu
  rcases h e he hu with ht | hP
  · exact ht
  · exact absurd hP (List.not_mem_nil e.eid)

/-- CLAIM C1. All-or-nothing across a release/acquire edge: for every
release entry `R` on thread `t1` and acquire entry `A` on thread `t2`
whose `value_or_pointer` points to `R`, when the recovery driver
(`Recover()` of recover.cpp, which on reaching `R` first recursively
recovers every thread holding a not-yet-replayed acquire that observed
`R` before moving past `R`) completes, the FASEs of both threads are
fully undone — every undo action recorded in either thread's chain in
the recovery-visible log has been applied — so no mixed state is
possible between the two ends of the edge.  (Entries absent from the
recovery-visible log are untouched: the driver only replays entries
reachable from the log header, so "both preserved" is the degenerate
case where neither FASE appears in the log.) -/
theorem c1_release_acquire_all_or_nothing (L : LogState) (fuel : Nat)
    (m : Mem) (s1 : RecState) (t1 t2 : Nat) (R A : LogEntry)
    (hwf : wfLog L) (hrun : recoverAll L fuel m = some s1)
    (hR : R ∈ chain L t1) (hRrel : R.isRelease = true)
    (hA : A ∈ chain L t2) (hAacq : A.isAcquire = true)
    (hobs : A.valueOrPtr = R.eid) :
    fullyUndone L s1 t1 ∧ fullyUndone L s1 t2 := by
  have hne1 : chain L t1 ≠ [] := by
    intro hc
    rw [hc] at hR
    exact absurd hR (List.not_mem_nil R)
  have hne2 : chain L t2 ≠ [] := by
    intro hc
    rw [hc] at hA
    exact absurd hA (List.not_mem_nil A)
  exact ⟨recoverAll_undone L hwf fuel m s1 hrun t1 hne1,
    recoverAll_undone L hwf fuel m s1 hrun t2 hne2⟩

/-- A concrete two-thread log for the witness: thread 0 runs
`acquire(L1); *200 = ...; release(L1)` and thread 1 then runs
`acquire(L1)` (observing the release entry 3), a store, and a release. -/
def c1Log : LogState :=
  [[⟨1, 100, 0, 0, .acquire⟩, ⟨2, 200, 64, 7, .str⟩, ⟨3, 100, 0, 0, .release⟩],
   [⟨4, 100, 0, 3, .acquire⟩, ⟨5, 208, 64, 7, .str⟩, ⟨6, 100, 0, 0, .release⟩]]

/-- Witness for C1 on `c1Log`: the run terminates within fuel 99 and
both threads' chains are fully undone. -/
theorem c1_release_acquire_all_or_nothing_witness :
    wfLog c1Log ∧
    ∃ s1, recoverAll c1Log 99 (fun _ => 0) = some s1 ∧
      fullyUndone c1Log s1 0 ∧ fullyUndone c1Log s1 1 := by
  have hs : (recoverAll c1Log 99 (fun _ => 0)).isSome = true := by decide
  have hrun : recoverAll c1Log 99 (fun _ => 0) =
      some ((recoverAll c1Log 99 (fun _ => 0)).get hs) :=
    (Option.some_get hs).symm
  refine ⟨by unfold wfLog; decide, (recoverAll c1Log 99 (fun _ => 0)).get hs, hrun, ?_⟩
  exact c1_release_acquire_all_or_nothing c1Log 99 (fun _ => 0)
    ((recoverAll c1Log 99 (fun _ => 0)).get hs) 0 1
    ⟨3, 100, 0, 0, .release⟩ ⟨4, 100, 0, 3, .acquire⟩
    (by unfold wfLog; decide) hrun (by decide) (by decide) (by decide) (by decide)
    (by decide)

/-! ## The recovery driver process (main / R_Initialize / R_Finalize)

`PmSys` is the on-PM state the driver sees: whether the log region file
exists and, if so, the log structure reachable from the region root
(`none` at the inner level models a null root / header, the case recover.cpp
reports as "No logs present"), plus the user regions' bytes.  The
helper replay performed by `main` before reading the recovery pointer
runs on the same log-before-data rule and is represented by the same
undo pass here (its refinement is out of scope of this claim). -/
structure PmSys where
  logFile : Option (Option LogState)
  mem : Mem

/-- The driver `main`:
  - `R_Initialize` exits 0 ("No log file exists, nothing to do") before
    touching anything when the log region file is absent;
  - a null log-structure header prints "No logs present", runs
    `R_Finalize` (which `NVM_DeleteRegion`s — unlinks — the log) and
    exits 0;
  - otherwise the undo walk runs and `R_Finalize` unlinks the log.
`none` = the walk ran out of fuel. -/
def recoverMain (fuel : Nat) (sys : PmSys) : Option (PmSys × Nat) :=
  match sys.logFile with
  | none => some (sys, 0)
  | some none => some ({ sys with logFile := none }, 0)
  | some (some L) =>
      (recoverAll L fuel sys.mem).map
        (fun s => ({ logFile := none, mem := s.mem }, 0))

/-- CLAIM C8. Recovery is idempotent: a completed driver run exits 0 and
leaves no log file (the log region is unlinked at the end), so running
the driver again returns exit status 0 and changes nothing — in
particular the user regions hold exactly the same content after two runs
as after one. -/
theorem c8_recovery_idempotent (fuel : Nat) (sys sys1 : PmSys) (code : Nat)
    (hrun : recoverMain fuel sys = some (sys1, code)) :
    code = 0 ∧ sys1.logFile = none ∧
      recoverMain fuel sys1 = some (sys1, 0) := by
  obtain ⟨lf, mm⟩ := sys
  rcases lf with _ | inner
  · simp only [recoverMain] at hrun
    obtain ⟨h1, h2⟩ := Prod.mk.inj (Option.some.inj hrun)
    refine ⟨h2.symm, ?_, ?_⟩
    · rw [← h1]
    · rw [← h1]
      rfl
  · rcases inner with _ | L
    · simp only [recoverMain] at hrun
      obtain ⟨h1, h2⟩ := Prod.mk.inj (Option.some.inj hrun)
      refine ⟨h2.symm, ?_, ?_⟩
      · rw [← h1]
      · rw [← h1]
        rfl
    · simp only [recoverMain] at hrun
      rcases hra : recoverAll L fuel mm with _ | s
      · rw [hra] at hrun
        simp at hrun
      · rw [hra] at hrun
        simp only [Option.map_some'] at hrun
        obtain ⟨h1, h2⟩ := Prod.mk.inj (Option.some.inj hrun)
        refine ⟨h2.symm, ?_, ?_⟩
        · rw [← h1]
        · rw [← h1]
          rfl

/-- Witness for C8: a system whose log region holds `c1Log`; the first
run succeeds, the second is the identity with exit status 0. -/
theorem c8_recovery_idempotent_witness :
    ∃ sys1, recoverMain 99 ⟨some (some c1Log), fun _ => 0⟩ = some (sys1, 0) ∧
      sys1.logFile = none ∧ recoverMain 99 sys1 = some (sys1, 0) := by
  have hs : (recoverMain 99 ⟨some (some c1Log), fun _ => 0⟩).isSome = true := by
    decide
  rcases hrun : recoverMain 99 ⟨some (some c1Log), fun _ => 0⟩ with _ | p
  · rw [hrun] at hs
    exact Bool.noConfusion hs
  · obtain ⟨hcode, hnolog, hagain⟩ :=
      c8_recovery_idempotent 99 ⟨some (some c1Log), fun _ => 0⟩ p.1 p.2
        (by rw [hrun])
    have hp : p = (p.1, 0) := by
      rw [← hcode]
    refine ⟨p.1, ?_, hnolog, hagain⟩
    exact congrArg some hp

/-! ## The persistent region manager (pregion_mgr.cpp)

The on-PM region table: a count word followed by an array of slots
(name, id, base address, deleted bit; `mapped` is the transient
`is_mapped_` flag).  Slots at or beyond `count` are uncommitted garbage:
`searchPRegion` never reads them. -/

structure Slot where
  name : String
  rid : Nat
  base : Nat
  deleted : Bool
  mapped : Bool
deriving DecidableEq, Repr

structure PTable where
  count : Nat
  slots : Nat → Slot

def kPRegionSize : Nat := 4294967296

def kPRegionsBase : Nat := 1099511627776

/-- Modelled from the spec: base-address selection picks disjoint
`RGN_SIZE`-aligned slots in a reserved virtual range, deterministically
from the table state, so a region remaps to the same address on every
run (`computeNewPRegionBaseAddr` is declared in a header that is not
among the provided sources). -/
def computeNewPRegionBaseAddr (t : PTable) : Nat :=
  kPRegionsBase + (t.count + 1) * kPRegionSize

/-- `searchPRegion`: scan slots `0..count-1` in order, return the first
whose name matches. -/
def searchPRegionIdx (t : PTable) (name : String) : Option Nat :=
  (List.range t.count).find? (fun i => (t.slots i).name = name)

def updateSlot (f : Nat → Slot) (i : Nat) (s : Slot) : Nat → Slot :=
  fun j => if j = i then s else f j

/-- `mapNewPRegionImpl`: placement-new of `PRegion(name, rid, base_addr)`
over the slot, then `mapFile` + extent insertion + root initialisation.
The `PRegion` constructor body lives in a header that is not among the
provided sources; modelled from the spec: the slot is (re)written with
the given name, id and base, with the deleted bit clear, and mapping
sets the transient mapped flag.  (The source notes this routine is not
failure-atomic; the non-crash state transition is as below.) -/
def mapNewPRegionImpl (t : PTable) (i : Nat) (name : String)
    (rid base : Nat) : PTable :=
  { t with slots := updateSlot t.slots i ⟨name, rid, base, false, true⟩ }

/-- `initExistingPRegionImpl` / `mapExistingPRegion`: remap the file at
the recorded base and set the transient mapped flag; name, id, base and
deleted bit are untouched. -/
def initExistingPRegionImpl (t : PTable) (i : Nat) : PTable :=
  { t with slots := updateSlot t.slots i { t.slots i with mapped := true } }

/-- `setNumPRegions` (the count-word store; its `NVM_FLUSH` matters only
to the crash model below). -/
def setNumPRegions (t : PTable) (count : Nat) : PTable :=
  { t with count := count }

/-- `mapNewPRegion`: fill the slot at index `count`, then commit by
incrementing the count.  Returns the new region id (`num_entries`). -/
def mapNewPRegion (t : PTable) (name : String) (base : Nat) : PTable × Nat :=
  let n := t.count
  let t1 := mapNewPRegionImpl t n name n base
  (setNumPRegions t1 (n + 1), n)

def initNewPRegionImpl (t : PTable) (name : String) : PTable × Nat :=
  mapNewPRegion t name (computeNewPRegionBaseAddr t)

/-- `findOrCreatePRegion` (locking elided: the table mutex and the
exclusive file lock serialize the whole body, so the embedding is its
sequential effect).  Returns (new table, region id, is_created). -/
def findOrCreatePRegion (t : PTable) (name : String) : PTable × Nat × Bool :=
  match searchPRegionIdx t name with
  | some i =>
      if !(t.slots i).deleted then
        (initExistingPRegionImpl t i, (t.slots i).rid, false)
      else
        (mapNewPRegionImpl t i name (t.slots i).rid (t.slots i).base,
          (t.slots i).rid, true)
  | none =>
      let r := initNewPRegionImpl t name
      (r.1, r.2, true)

/-- `findPRegion(name, flags, is_in_recovery)`.  The source returns the
sentinel `kInvalidPRegion_`; the embedding returns `none` for it. -/
def findPRegion (t : PTable) (name : String) (isInRecovery : Bool) :
    PTable × Option Nat :=
  match searchPRegionIdx t name with
  | none => (t, none)
  | some i =>
      if (t.slots i).deleted && !isInRecovery then (t, none)
      else if (t.slots i).deleted && isInRecovery then
        (mapNewPRegionImpl t i name (t.slots i).rid (t.slots i).base,
          some (t.slots i).rid)
      else (initExistingPRegionImpl t i, some (t.slots i).rid)

theorem find?_congr {α : Type} : ∀ (l : List α) (p q : α → Bool),
    (∀ a ∈ l, p a = q a) → l.find? p = l.find? q
  | [], _, _, _ => rfl
  | a :: rest, p, q, h => by
    have ha := h a (List.mem_cons_self a rest)
    by_cases hp : p a = true
    · rw [List.find?_cons_of_pos _ hp, List.find?_cons_of_pos _ (ha ▸ hp)]
    · rw [List.find?_cons_of_neg _ hp, List.find?_cons_of_neg _ (by rw [← ha]; exact hp)]
      exact find?_congr rest p q (fun b hb => h b (List.mem_cons_of_mem a hb))

theorem search_some (t : PTable) (name : String) (i : Nat)
    (h : searchPRegionIdx t name = some i) :
    i < t.count ∧ (t.slots i).name = name := by
  unfold searchPRegionIdx at h
  refine ⟨List.mem_range.mp (List.mem_of_find?_eq_some h), ?_⟩
  have := List.find?_some h
  exact of_decide_eq_true this

theorem search_none (t : PTable) (name : String)
    (h : searchPRegionIdx t name = none) :
    ∀ i, i < t.count → (t.slots i).name ≠ name := by
  intro i hi hcon
  unfold searchPRegionIdx at h
  rw [List.find?_eq_none] at h
  exact h i (List.mem_range.mpr hi) (decide_eq_true hcon)

theorem find?_append_none {α : Type} : ∀ (l1 l2 : List α) (p : α → Bool),
    l1.find? p = none → (l1 ++ l2).find? p = l2.find? p
  | [], _, _, _ => rfl
  | a :: rest, l2, p, h => by
    have hp : ¬ (p a = true) := by
      intro hc
      rw [List.find?_cons_of_pos _ hc] at h
      exact Option.noConfusion h
    rw [List.find?_cons_of_neg _ hp] at h
    rw [List.cons_append, List.find?_cons_of_neg _ hp]
    exact find?_append_none rest l2 p h

theorem search_congr (t t2 : PTable) (name : String)
    (hc : t2.count = t.count)
    (hn : ∀ j, j < t.count → (t2.slots j).name = (t.slots j).name) :
    searchPRegionIdx t2 name = searchPRegionIdx t name := by
  unfold searchPRegionIdx
  rw [hc]
  exact find?_congr (List.range t.count) _ _
    (fun j hj => by rw [hn j (List.mem_range.mp hj)])

/-- CLAIM C4. `findOrCreatePRegion` trichotomy: an existing non-deleted
slot is returned with `created = false` (its id and base untouched); an
existing deleted slot is re-created in place reusing its id and base
with `created = true`; otherwise the next slot is allocated with id
`count` and a fresh base distinct from every existing slot's base, with
`created = true`.  In every case a subsequent lookup of the same name
(what a later process performs) finds a slot carrying exactly the
returned id and the preserved (resp. fresh) base. -/
theorem c4_findOrCreate_trichotomy (t : PTable) (name : String)
    (hwb : ∀ i, i < t.count →
      (t.slots i).base = kPRegionsBase + (i + 1) * kPRegionSize) :
    (∀ i, searchPRegionIdx t name = some i → (t.slots i).deleted = false →
      findOrCreatePRegion t name =
        (initExistingPRegionImpl t i, (t.slots i).rid, false) ∧
      ((initExistingPRegionImpl t i).slots i).rid = (t.slots i).rid ∧
      ((initExistingPRegionImpl t i).slots i).base = (t.slots i).base) ∧
    (∀ i, searchPRegionIdx t name = some i → (t.slots i).deleted = true →
      (findOrCreatePRegion t name).2 = ((t.slots i).rid, true) ∧
      ((findOrCreatePRegion t name).1.slots i) =
        ⟨name, (t.slots i).rid, (t.slots i).base, false, true⟩) ∧
    (searchPRegionIdx t name = none →
      (findOrCreatePRegion t name).2 = (t.count, true) ∧
      (findOrCreatePRegion t name).1.count = t.count + 1 ∧
      ((findOrCreatePRegion t name).1.slots t.count) =
        ⟨name, t.count, computeNewPRegionBaseAddr t, false, true⟩ ∧
      ∀ i, i < t.count → (t.slots i).base ≠ computeNewPRegionBaseAddr t) ∧
    (∃ j, searchPRegionIdx (findOrCreatePRegion t name).1 name = some j ∧
      ((findOrCreatePRegion t name).1.slots j).rid =
        (findOrCreatePRegion t name).2.1 ∧
      ((findOrCreatePRegion t name).1.slots j).name = name) := by
  refine ⟨?_, ?_, ?_, ?_⟩
  · intro i hs hd
    rw [findOrCreatePRegion, hs]
    simp [hd, initExistingPRegionImpl, updateSlot]
  · intro i hs hd
    rw [findOrCreatePRegion, hs]
    simp [hd, mapNewPRegionImpl, updateSlot]
  · intro hs
    rw [findOrCreatePRegion, hs]
    refine ⟨rfl, rfl, ?_, ?_⟩
    · simp [initNewPRegionImpl, mapNewPRegion, setNumPRegions,
        mapNewPRegionImpl, updateSlot]
    · intro i hi
      rw [hwb i hi]
      unfold computeNewPRegionBaseAddr kPRegionSize kPRegionsBase
      omega
  · rcases hs : searchPRegionIdx t name with _ | i
    · -- fresh slot: the new slot at index `count` is the first match
      rw [findOrCreatePRegion, hs]
      refine ⟨t.count, ?_, ?_, ?_⟩
      · show searchPRegionIdx (setNumPRegions
          (mapNewPRegionImpl t t.count name t.count (computeNewPRegionBaseAddr t))
          (t.count + 1)) name = some t.count
        unfold searchPRegionIdx setNumPRegions mapNewPRegionImpl updateSlot
        simp only
        rw [List.range_succ, find?_append_none]
        · rw [List.find?_cons_of_pos _ (by simp)]
        · rw [List.find?_eq_none]
          intro j hj
          have hjlt := List.mem_range.mp hj
          simp only [decide_eq_true_eq]
          rw [if_neg (by omega)]
          exact fun hc => search_none t name hs j hjlt hc
      · simp [initNewPRegionImpl, mapNewPRegion, setNumPRegions,
          mapNewPRegionImpl, updateSlot]
      · simp [initNewPRegionImpl, mapNewPRegion, setNumPRegions,
          mapNewPRegionImpl, updateSlot]
    · have hname := (search_some t name i hs).2
      have hilt := (search_some t name i hs).1
      by_cases hd : (t.slots i).deleted = true
      · have hres : findOrCreatePRegion t name =
            (mapNewPRegionImpl t i name (t.slots i).rid (t.slots i).base,
              (t.slots i).rid, true) := by
          rw [findOrCreatePRegion, hs]
          simp [hd]
        have hnames : ∀ j, j < t.count →
            ((mapNewPRegionImpl t i name (t.slots i).rid (t.slots i).base).slots j).name
              = (t.slots j).name := by
          intro j hj
          unfold mapNewPRegionImpl updateSlot
          by_cases hji : j = i
          · subst hji
            simp [hname]
          · simp [hji]
        have hsearch2 : searchPRegionIdx
            (mapNewPRegionImpl t i name (t.slots i).rid (t.slots i).base) name
              = some i := by
          rw [search_congr t
            (mapNewPRegionImpl t i name (t.slots i).rid (t.slots i).base)
            name rfl hnames]
          exact hs
        refine ⟨i, ?_, ?_, ?_⟩
        · rw [hres]
          exact hsearch2
        · rw [hres]
          simp [mapNewPRegionImpl, updateSlot]
        · rw [hres]
          simp [mapNewPRegionImpl, updateSlot]
      · have hres : findOrCreatePRegion t name =
            (initExistingPRegionImpl t i, (t.slots i).rid, false) := by
          rw [findOrCreatePRegion, hs]
          simp [Bool.eq_false_iff.mpr hd]
        have hnames : ∀ j, j < t.count →
            ((initExistingPRegionImpl t i).slots j).name = (t.slots j).name := by
          intro j hj
          unfold initExistingPRegionImpl updateSlot
          by_cases hji : j = i
          · subst hji
            simp
          · simp [hji]
        have hsearch2 : searchPRegionIdx (initExistingPRegionImpl t i) name
            = some i := by
          rw [search_congr t (initExistingPRegionImpl t i) name rfl hnames]
          exact hs
        refine ⟨i, ?_, ?_, ?_⟩
        · rw [hres]
          exact hsearch2
        · rw [hres]
          simp [initExistingPRegionImpl, updateSlot]
        · rw [hres]
          simp [initExistingPRegionImpl, updateSlot, hname]

/-- Concrete region table for the C4/C7 witnesses: slot 0 holds a
deleted region named `a`, slot 1 a live region named `b`. -/
def c47T : PTable :=
  { count := 2,
    slots := fun i =>
      if i = 0 then ⟨"a", 0, kPRegionsBase + 1 * kPRegionSize, true, false⟩
      else if i = 1 then ⟨"b", 1, kPRegionsBase + 2 * kPRegionSize, false, false⟩
      else ⟨"", 0, 0, false, false⟩ }

theorem c47T_bases : ∀ i, i < c47T.count →
    (c47T.slots i).base = kPRegionsBase + (i + 1) * kPRegionSize := by
  intro i hi
  match i, hi with
  | 0, _ => rfl
  | 1, _ => rfl

/-- Witness for C4 at `c47T`: lookup of `b` hits the live slot
(`created = false`, id 1), lookup of `a` re-creates the deleted slot in
place (`created = true`, id 0, base reused), lookup of `c` allocates
slot 2 with a fresh base. -/
theorem c4_findOrCreate_trichotomy_witness :
    (searchPRegionIdx c47T "b" = some 1 ∧ (c47T.slots 1).deleted = false ∧
      findOrCreatePRegion c47T "b" =
        (initExistingPRegionImpl c47T 1, (c47T.slots 1).rid, false)) ∧
    (searchPRegionIdx c47T "a" = some 0 ∧ (c47T.slots 0).deleted = true ∧
      (findOrCreatePRegion c47T "a").2 = ((c47T.slots 0).rid, true) ∧
      ((findOrCreatePRegion c47T "a").1.slots 0) =
        ⟨"a", (c47T.slots 0).rid, (c47T.slots 0).base, false, true⟩) ∧
    (searchPRegionIdx c47T "c" = none ∧
      (findOrCreatePRegion c47T "c").2 = (c47T.count, true) ∧
      ∀ i, i < c47T.count →
        (c47T.slots i).base ≠ computeNewPRegionBaseAddr c47T) := by
  refine ⟨⟨by decide, by decide, ?_⟩, ⟨by decide, by decide, ?_, ?_⟩,
    by decide, ?_, ?_⟩
  · exact ((c4_findOrCreate_trichotomy c47T "b" c47T_bases).1 1
      (by decide) (by decide)).1
  · exact ((c4_findOrCreate_trichotomy c47T "a" c47T_bases).2.1 0
      (by decide) (by decide)).1
  · exact ((c4_findOrCreate_trichotomy c47T "a" c47T_bases).2.1 0
      (by decide) (by decide)).2
  · exact ((c4_findOrCreate_trichotomy c47T "c" c47T_bases).2.2.1
      (by decide)).1
  · exact ((c4_findOrCreate_trichotomy c47T "c" c47T_bases).2.2.1
      (by decide)).2.2.2

/-- CLAIM C7. `findPRegion` returns the invalid region id (modelled as
`none`) when no slot with the name exists, and when the slot exists but
is deleted and `is_in_recovery` is false; with `is_in_recovery` true a
deleted slot is instead re-mapped in place, reusing its id and base
address, and its id is returned; a live slot is mapped and its id
returned. -/
theorem c7_findPRegion_cases (t : PTable) (name : String) (rec : Bool) :
    (searchPRegionIdx t name = none → findPRegion t name rec = (t, none)) ∧
    (∀ i, searchPRegionIdx t name = some i → (t.slots i).deleted = true →
      rec = false → findPRegion t name rec = (t, none)) ∧
    (∀ i, searchPRegionIdx t name = some i → (t.slots i).deleted = true →
      rec = true →
      (findPRegion t name rec).2 = some (t.slots i).rid ∧
      ((findPRegion t name rec).1.slots i) =
        ⟨name, (t.slots i).rid, (t.slots i).base, false, true⟩) ∧
    (∀ i, searchPRegionIdx t name = some i → (t.slots i).deleted = false →
      (findPRegion t name rec).2 = some (t.slots i).rid) := by
  refine ⟨?_, ?_, ?_, ?_⟩
  · intro hs
    rw [findPRegion, hs]
  · intro i hs hd hrec
    subst hrec
    rw [findPRegion, hs]
    simp [hd]
  · intro i hs hd hrec
    subst hrec
    rw [findPRegion, hs]
    simp [hd, mapNewPRegionImpl, updateSlot]
  · intro i hs hd
    rw [findPRegion, hs]
    simp [hd]

/-- Witness for C7 at `c47T`: name `c` is absent (invalid); deleted `a`
is invalid outside recovery but re-mapped with id 0 and its old base in
recovery; live `b` returns id 1. -/
theorem c7_findPRegion_cases_witness :
    (searchPRegionIdx c47T "c" = none ∧ findPRegion c47T "c" false = (c47T, none)) ∧
    (searchPRegionIdx c47T "a" = some 0 ∧ (c47T.slots 0).deleted = true ∧
      findPRegion c47T "a" false = (c47T, none) ∧
      (findPRegion c47T "a" true).2 = some (c47T.slots 0).rid ∧
      ((findPRegion c47T "a" true).1.slots 0) =
        ⟨"a", (c47T.slots 0).rid, (c47T.slots 0).base, false, true⟩) ∧
    ((c47T.slots 1).deleted = false ∧
      (findPRegion c47T "b" false).2 = some (c47T.slots 1).rid) := by
  refine ⟨⟨by decide, ?_⟩, ⟨by decide, by decide, ?_, ?_, ?_⟩, by decide, ?_⟩
  · exact (c7_findPRegion_cases c47T "c" false).1 (by decide)
  · exact (c7_findPRegion_cases c47T "a" false).2.1 0 (by decide) (by decide) rfl
  · exact ((c7_findPRegion_cases c47T "a" true).2.2.1 0 (by decide) (by decide) rfl).1
  · exact ((c7_findPRegion_cases c47T "a" true).2.2.1 0 (by decide) (by decide) rfl).2
  · exact (c7_findPRegion_cases c47T "b" false).2.2.2 1 (by decide) (by decide)

/-! ## Crash model of region creation (mapNewPRegion / setNumPRegions)

The persistent effect of creating a brand-new region is the write
sequence: slot store, slot flush, count store, count flush.  A crash
after `k` steps may lose any store not yet flushed, but a store whose
flush also executed before the crash is durable (`persistedOK`). -/

inductive PMWrite where
  | wslot (i : Nat) (s : Slot)
  | fslot (i : Nat)
  | wcount (n : Nat)
  | fcount
deriving DecidableEq, Repr

/-- The persistent writes of `mapNewPRegion` in program order:
`mapNewPRegionImpl` writes the new slot (the `PRegion` constructor body
and its flush are in a header not among the provided sources; modelled
from the spec creation order (a) write slot (b) flush slot), then
`setNumPRegions(n+1)` stores the count word and `NVM_FLUSH`es it. -/
def mapNewPRegionWrites (t : PTable) (name : String) (base : Nat) :
    List PMWrite :=
  [.wslot t.count ⟨name, t.count, base, false, true⟩, .fslot t.count,
   .wcount (t.count + 1), .fcount]

def applyWrite (t : PTable) : PMWrite → PTable
  | .wslot i s => { t with slots := updateSlot t.slots i s }
  | .fslot _ => t
  | .wcount n => { t with count := n }
  | .fcount => t

def isFlushOf : PMWrite → PMWrite → Bool
  | .fslot i, .wslot j _ => i = j
  | .fcount, .wcount _ => true
  | _, _ => false

/-- Crash persistence discipline: only steps before the crash point `k`
can persist, and a store whose flush also ran before `k` must persist. -/
def persistedOK (tr : List PMWrite) (k : Nat) (keep : Nat → Bool) : Prop :=
  (∀ i, keep i = true → i < k ∧ i < tr.length) ∧
  (∀ i j, i < j → j < k → j < tr.length →
    isFlushOf (tr.getD j .fcount) (tr.getD i .fcount) = true → keep i = true)

def crashGo (keep : Nat → Bool) : Nat → List PMWrite → PTable → PTable
  | _, [], t => t
  | i, w :: rest, t =>
      crashGo keep (i + 1) rest (if keep i then applyWrite t w else t)

/-- The table state observed after the crash: the kept writes applied in
program order. -/
def crashState (t : PTable) (tr : List PMWrite) (keep : Nat → Bool) : PTable :=
  crashGo keep 0 tr t

/-- What the next open observes: the committed count and the slots below
it (slots at or beyond the count are unreachable). -/
def observable (t : PTable) : Nat × List Slot :=
  (t.count, (List.range t.count).map t.slots)

theorem observable_ignore_high (t : PTable) (i : Nat) (s : Slot)
    (hi : t.count ≤ i) :
    observable { t with slots := updateSlot t.slots i s } = observable t := by
  unfold observable
  refine Prod.ext rfl ?_
  show (List.range t.count).map (updateSlot t.slots i s) = _
  apply List.map_congr_left
  intro j hj
  have hjlt := List.mem_range.mp hj
  unfold updateSlot
  rw [if_neg (by omega)]

/-- The net table state produced by the kept writes of a (possibly
crashed) creation: the slot store applies iff `keep 0`, the count store
iff `keep 2` (the two flush steps change no state). -/
def creationCrashResult (t : PTable) (name : String) (base : Nat)
    (keep : Nat → Bool) : PTable :=
  let t1 := if keep 0 then
    { t with slots :=
        updateSlot t.slots t.count ⟨name, t.count, base, false, true⟩ }
    else t
  if keep 2 then { t1 with count := t.count + 1 } else t1

/-- CLAIM C3 (amended form). The count increment commits region
creation: in the write sequence of `mapNewPRegion` the slot store and
its flush strictly precede the count store and its flush, so for every
crash point and every persistence choice respecting `persistedOK`:
if the count store did not persist, the observable table is exactly the
pre-creation table — the torn slot is invisible (in particular no slot
for the new name is observed at all, deleted or otherwise); and if the
count store did persist, the slot store is durable too (its flush
preceded the count store) and the observable table is exactly the
completed creation. -/
theorem c3_creation_commit (t : PTable) (name : String) (base : Nat)
    (k : Nat) (keep : Nat → Bool)
    (hok : persistedOK (mapNewPRegionWrites t name base) k keep) :
    (keep 2 = false →
      observable (crashState t (mapNewPRegionWrites t name base) keep) =
        observable t) ∧
    (keep 2 = true →
      keep 0 = true ∧
      observable (crashState t (mapNewPRegionWrites t name base) keep) =
        observable (mapNewPRegion t name base).1) := by
  have hstate : crashState t (mapNewPRegionWrites t name base) keep =
      creationCrashResult t name base keep := by
    by_cases h0 : keep 0 = true <;> by_cases h1 : keep 1 = true <;>
      by_cases h2 : keep 2 = true <;> by_cases h3 : keep 3 = true <;>
        simp [crashState, mapNewPRegionWrites, crashGo, creationCrashResult,
          h0, h1, h2, h3, applyWrite]
  constructor
  · intro h2
    rw [hstate]
    unfold creationCrashResult
    simp only [h2, Bool.false_eq_true, if_false]
    by_cases h0 : keep 0 = true
    · simp only [h0, if_true]
      exact observable_ignore_high t t.count _ (Nat.le_refl _)
    · simp [h0]
  · intro h2
    have h0 : keep 0 = true := by
      have hk2 := (hok.1 2 h2).1
      exact hok.2 0 1 (by omega) (by omega) (by simp [mapNewPRegionWrites])
        (by simp [mapNewPRegionWrites, isFlushOf])
    refine ⟨h0, ?_⟩
    rw [hstate]
    unfold creationCrashResult
    simp only [h0, h2, if_true]
    unfold mapNewPRegion mapNewPRegionImpl setNumPRegions observable
    rfl

/-- The initial empty table used in the C3 counterexample. -/
def c3T0 : PTable := { count := 0, slots := fun _ => ⟨"", 0, 0, false, false⟩ }

def c3Keep : Nat → Bool := fun i => i < 2

/-- Counterexample to CLAIM C3 as stated: a torn (partially completed)
creation of region `r` — the slot is written and flushed but the crash
hits before the count increment persists — leaves a table in which the
next open observes NO slot named `r` at all (`searchPRegion` returns
null and the observable table is the original empty one), contradicting
the claim that a torn creation leaves a slot that is observed as marked
deleted on the next open. -/
theorem c3_torn_creation_counterexample :
    persistedOK (mapNewPRegionWrites c3T0 "r" 4096) 2 c3Keep ∧
    searchPRegionIdx
      (crashState c3T0 (mapNewPRegionWrites c3T0 "r" 4096) c3Keep) "r" = none ∧
    (crashState c3T0 (mapNewPRegionWrites c3T0 "r" 4096) c3Keep).count = 0 ∧
    ¬ (∃ i, i < (crashState c3T0 (mapNewPRegionWrites c3T0 "r" 4096) c3Keep).count ∧
        ((crashState c3T0 (mapNewPRegionWrites c3T0 "r" 4096) c3Keep).slots i).name = "r" ∧
        ((crashState c3T0 (mapNewPRegionWrites c3T0 "r" 4096) c3Keep).slots i).deleted = true) := by
  refine ⟨⟨?_, ?_⟩, rfl, rfl, ?_⟩
  · intro i hi
    have : i < 2 := by
      by_contra hge
      simp [c3Keep] at hi
      omega
    exact ⟨this, by simp [mapNewPRegionWrites]; omega⟩
  · intro i j hij hjk hjlen
    intro hfl
    show decide (i < 2) = true
    simp
    omega
  · rintro ⟨i, hi, -, -⟩
    rw [show (crashState c3T0 (mapNewPRegionWrites c3T0 "r" 4096) c3Keep).count
      = 0 from rfl] at hi
    exact absurd hi (by omega)

/-- Witness for the amended C3 theorem at the counterexample's input:
with the same torn persistence choice the observable table is unchanged,
and with full persistence the observable table is the completed
creation. -/
theorem c3_creation_commit_witness :
    (persistedOK (mapNewPRegionWrites c3T0 "r" 4096) 2 c3Keep ∧
      observable (crashState c3T0 (mapNewPRegionWrites c3T0 "r" 4096) c3Keep) =
        observable c3T0) ∧
    (persistedOK (mapNewPRegionWrites c3T0 "r" 4096) 4 (fun i => i < 4) ∧
      observable
          (crashState c3T0 (mapNewPRegionWrites c3T0 "r" 4096) (fun i => i < 4)) =
        observable (mapNewPRegion c3T0 "r" 4096).1) := by
  have hok1 : persistedOK (mapNewPRegionWrites c3T0 "r" 4096) 2 c3Keep := by
    constructor
    · intro i hi
      have hlt : i < 2 := by
        by_contra hge
        simp [c3Keep] at hi
        omega
      exact ⟨hlt, by simp [mapNewPRegionWrites]; omega⟩
    · intro i j hij hjk _ _
      show decide (i < 2) = true
      simp
      omega
  have hok2 : persistedOK (mapNewPRegionWrites c3T0 "r" 4096) 4 (fun i => i < 4) := by
    constructor
    · intro i hi
      have hlt : i < 4 := by
        by_contra hge
        simp at hi
        omega
      exact ⟨hlt, by simp [mapNewPRegionWrites]; omega⟩
    · intro i j hij hjk _ _
      show decide (i < 4) = true
      simp
      omega
  refine ⟨⟨hok1, ?_⟩, hok2, ?_⟩
  · exact (c3_creation_commit c3T0 "r" 4096 2 c3Keep hok1).1 rfl
  · exact ((c3_creation_commit c3T0 "r" 4096 4 (fun i => i < 4) hok2).2 rfl).2

/-! ## The instrumentation ABI wrappers (log_mgr_api.cpp)

Each `nvm_*` entry point checks `LogMgr::hasInstance()` and forwards to
the Log Manager.  The forwarded effect is recorded as an opcode; the
wrappers return `some` on a normal return and `none` when the body's
`assert` fires (an aborted call).  `nvm_psync` and `nvm_psync_acq`
assert `hasInstance` instead of checking it. -/

inductive LmOp where
  | acqOp (l : Nat)
  | relOp (l : Nat)
  | rdOp (l : Nat)
  | wrOp (l : Nat)
  | rwuOp (l : Nat)
  | beginDurOp
  | endDurOp
  | storeOp (a sz : Nat)
  | memsetOp (a sz : Nat)
  | memcpyOp (a sz : Nat)
  | memmoveOp (a sz : Nat)
  | strcpyOp (a sz : Nat)
  | strcatOp (a sz : Nat)
  | logAllocOp (a : Nat)
  | logFreeOp (a : Nat)
  | psyncOp (a sz : Nat)
  | psyncAcqOp (a sz : Nat)
deriving DecidableEq, Repr

structure ApiState where
  hasInstance : Bool
  ops : List LmOp
deriving DecidableEq, Repr

def nvm_acquire (st : ApiState) (l : Nat) : Option ApiState :=
  if !st.hasInstance then some st
  else some { st with ops := st.ops ++ [.acqOp l] }

def nvm_release (st : ApiState) (l : Nat) : Option ApiState :=
  if !st.hasInstance then some st
  else some { st with ops := st.ops ++ [.relOp l] }

def nvm_rwlock_rdlock (st : ApiState) (l : Nat) : Option ApiState :=
  if !st.hasInstance then some st
  else some { st with ops := st.ops ++ [.rdOp l] }

def nvm_rwlock_wrlock (st : ApiState) (l : Nat) : Option ApiState :=
  if !st.hasInstance then some st
  else some { st with ops := st.ops ++ [.wrOp l] }

def nvm_rwlock_unlock (st : ApiState) (l : Nat) : Option ApiState :=
  if !st.hasInstance then some st
  else some { st with ops := st.ops ++ [.rwuOp l] }

def nvm_begin_durable (st : ApiState) : Option ApiState :=
  if !st.hasInstance then some st
  else some { st with ops := st.ops ++ [.beginDurOp] }

def nvm_end_durable (st : ApiState) : Option ApiState :=
  if !st.hasInstance then some st
  else some { st with ops := st.ops ++ [.endDurOp] }

def nvm_store (st : ApiState) (a sz : Nat) : Option ApiState :=
  if !st.hasInstance then some st
  else some { st with ops := st.ops ++ [.storeOp a sz] }

def nvm_memset (st : ApiState) (a sz : Nat) : Option ApiState :=
  if !st.hasInstance then some st
  else some { st with ops := st.ops ++ [.memsetOp a sz] }

def nvm_memcpy (st : ApiState) (a sz : Nat) : Option ApiState :=
  if !st.hasInstance then some st
  else some { st with ops := st.ops ++ [.memcpyOp a sz] }

def nvm_memmove (st : ApiState) (a sz : Nat) : Option ApiState :=
  if !st.hasInstance then some st
  else some { st with ops := st.ops ++ [.memmoveOp a sz] }

def nvm_strcpy (st : ApiState) (a sz : Nat) : Option ApiState :=
  if !st.hasInstance then some st
  else some { st with ops := st.ops ++ [.strcpyOp a sz] }

def nvm_strcat (st : ApiState) (a sz : Nat) : Option ApiState :=
  if !st.hasInstance then some st
  else some { st with ops := st.ops ++ [.strcatOp a sz] }

def nvm_log_alloc (st : ApiState) (a : Nat) : Option ApiState :=
  if !st.hasInstance then some st
  else some { st with ops := st.ops ++ [.logAllocOp a] }

def nvm_log_free (st : ApiState) (a : Nat) : Option ApiState :=
  if !st.hasInstance then some st
  else some { st with ops := st.ops ++ [.logFreeOp a] }

/-- `nvm_psync` does `assert(hasInstance)` and then dereferences the
instance: with the Log Manager uninitialized it aborts (`none`) rather
than returning normally. -/
def nvm_psync (st : ApiState) (a sz : Nat) : Option ApiState :=
  if !st.hasInstance then none
  else some { st with ops := st.ops ++ [.psyncOp a sz] }

/-- `nvm_psync_acq`, same assert as `nvm_psync`. -/
def nvm_psync_acq (st : ApiState) (a sz : Nat) : Option ApiState :=
  if !st.hasInstance then none
  else some { st with ops := st.ops ++ [.psyncAcqOp a sz] }

/-- Counterexample to CLAIM C5 as stated: with the Log Manager
uninitialized, `nvm_psync` (and `nvm_psync_acq`) does not return
normally as a no-op — it asserts `hasInstance` and aborts. -/
theorem c5_uninitialized_counterexample :
    nvm_psync ⟨false, []⟩ 0 8 = none ∧
    ¬ (nvm_psync ⟨false, []⟩ 0 8 = some ⟨false, []⟩) ∧
    nvm_psync_acq ⟨false, []⟩ 0 8 = none ∧
    ¬ (nvm_psync_acq ⟨false, []⟩ 0 8 = some ⟨false, []⟩) := by
  decide

/-- CLAIM C5 (amended form). When the Log Manager singleton is
uninitialized, every instrumentation-ABI operation except `nvm_psync`
and `nvm_psync_acq` is a no-op that returns normally; `nvm_psync` and
`nvm_psync_acq` instead assert `hasInstance` and abort. -/
theorem c5_uninitialized_noop (st : ApiState) (l a sz : Nat)
    (h : st.hasInstance = false) :
    nvm_acquire st l = some st ∧ nvm_release st l = some st ∧
    nvm_rwlock_rdlock st l = some st ∧ nvm_rwlock_wrlock st l = some st ∧
    nvm_rwlock_unlock st l = some st ∧ nvm_begin_durable st = some st ∧
    nvm_end_durable st = some st ∧ nvm_store st a sz = some st ∧
    nvm_memset st a sz = some st ∧ nvm_memcpy st a sz = some st ∧
    nvm_memmove st a sz = some st ∧ nvm_strcpy st a sz = some st ∧
    nvm_strcat st a sz = some st ∧ nvm_log_alloc st a = some st ∧
    nvm_log_free st a = some st ∧ nvm_psync st a sz = none ∧
    nvm_psync_acq st a sz = none := by
  simp [nvm_acquire, nvm_release, nvm_rwlock_rdlock, nvm_rwlock_wrlock,
    nvm_rwlock_unlock, nvm_begin_durable, nvm_end_durable, nvm_store,
    nvm_memset, nvm_memcpy, nvm_memmove, nvm_strcpy, nvm_strcat,
    nvm_log_alloc, nvm_log_free, nvm_psync, nvm_psync_acq, h]

/-- Witness for the amended C5 at the uninitialized state. -/
theorem c5_uninitialized_noop_witness :
    (⟨false, []⟩ : ApiState).hasInstance = false ∧
    nvm_acquire ⟨false, []⟩ 7 = some ⟨false, []⟩ ∧
    nvm_store ⟨false, []⟩ 100 64 = some ⟨false, []⟩ ∧
    nvm_psync ⟨false, []⟩ 100 64 = none := by
  have h := c5_uninitialized_noop ⟨false, []⟩ 7 100 64 (by decide)
  exact ⟨by decide, h.1, h.2.2.2.2.2.2.2.1, h.2.2.2.2.2.2.2.2.2.2.2.2.2.2.2.1⟩

/-! ## The release-to-acquire leaf behaviour (C6)

The publisher side table written by `logRelease` and read by
`logAcquire` lives in log_mgr.cpp, which is not among the provided
sources; it is modelled from the spec: a volatile map keyed by lock
address; a release publishes its entry's address; an acquire reads the
slot and records the prior release-entry pointer, or 0 (NULL) when the
lock has no slot because it was never released. -/

inductive SyncEv where
  | releaseEv (lock relEid : Nat)
  | otherEv
deriving DecidableEq, Repr

def insertA : List (Nat × Nat) → Nat → Nat → List (Nat × Nat)
  | [], k, v => [(k, v)]
  | (k0, v0) :: rest, k, v =>
    if k0 = k then (k0, v) :: rest else (k0, v0) :: insertA rest k v

def pubGo (tbl : List (Nat × Nat)) : List SyncEv → List (Nat × Nat)
  | [] => tbl
  | .releaseEv lock eid :: rest => pubGo (insertA tbl lock eid) rest
  | .otherEv :: rest => pubGo tbl rest

/-- Modelled from the spec: the last-publisher table after a history of
synchronization events. -/
def pubTable (evs : List SyncEv) : List (Nat × Nat) := pubGo [] evs

/-- Modelled from the spec: the `value_or_pointer` recorded by
`logAcquire(lock)` — the prior release-entry pointer, or 0 (NULL). -/
def logAcquireVOP (evs : List SyncEv) (lock : Nat) : Nat :=
  match lookupA (pubTable evs) lock with
  | none => 0
  | some r => r

theorem lookupA_insertA_ne (tbl : List (Nat × Nat)) (k k' v : Nat)
    (h : k' ≠ k) : lookupA (insertA tbl k v) k' = lookupA tbl k' := by
  have hkk : ¬ k = k' := fun hc => h hc.symm
  induction tbl with
  | nil => simp [insertA, lookupA, hkk]
  | cons p rest ih =>
    by_cases hk : p.1 = k
    · simp only [insertA, hk, if_pos, lookupA, hkk, if_neg, if_false]
    · simp only [insertA, hk, if_neg, if_false, lookupA]
      by_cases hk' : p.1 = k'
      · simp [hk']
      · simp [hk', ih]

theorem pubGo_no_release (lock : Nat) :
    ∀ (evs : List SyncEv) (tbl : List (Nat × Nat)),
    (∀ relEid, SyncEv.releaseEv lock relEid ∉ evs) →
    lookupA (pubGo tbl evs) lock = lookupA tbl lock
  | [], _, _ => rfl
  | .releaseEv l e :: rest, tbl, h => by
    have hl : l ≠ lock := by
      intro hc
      exact h e (by rw [hc]; exact List.mem_cons_self _ _)
    rw [show pubGo tbl (.releaseEv l e :: rest) = pubGo (insertA tbl l e) rest
      from rfl]
    rw [pubGo_no_release lock rest (insertA tbl l e)
      (fun r hr => h r (List.mem_cons_of_mem _ hr))]
    exact lookupA_insertA_ne tbl l lock e (fun hc => hl hc.symm)
  | .otherEv :: rest, tbl, h =>
    pubGo_no_release lock rest tbl (fun r hr => h r (List.mem_cons_of_mem _ hr))

/-- CLAIM C6. An acquire of a lock that was never previously released
records `value_or_pointer = 0` (NULL), and `AddToMap` — the recovery
release-to-acquire map construction — inserts no edge for such an
acquire entry, so it is a leaf of the release-to-acquire graph. -/
theorem c6_never_released_leaf (evs : List SyncEv) (lock : Nat)
    (hnr : ∀ relEid, SyncEv.releaseEv lock relEid ∉ evs) :
    logAcquireVOP evs lock = 0 ∧
    ∀ (m : List (Nat × Nat × Nat)) (eid a sz tid : Nat),
      AddToMap m ⟨eid, a, sz, logAcquireVOP evs lock, .acquire⟩ tid = m := by
  have hvop : logAcquireVOP evs lock = 0 := by
    unfold logAcquireVOP pubTable
    rw [pubGo_no_release lock evs [] hnr]
    rfl
  refine ⟨hvop, ?_⟩
  intro m eid a sz tid
  unfold AddToMap
  rw [if_neg (by simp [hvop])]

/-- Witness for C6: a history that releases only lock 5; lock 9 was
never released, so its acquire records NULL and contributes no edge. -/
theorem c6_never_released_leaf_witness :
    (∀ relEid, SyncEv.releaseEv 9 relEid ∉
      [SyncEv.releaseEv 5 77, SyncEv.otherEv]) ∧
    logAcquireVOP [SyncEv.releaseEv 5 77, SyncEv.otherEv] 9 = 0 ∧
    AddToMap [] ⟨41, 0, 0,
      logAcquireVOP [SyncEv.releaseEv 5 77, SyncEv.otherEv] 9, .acquire⟩ 1 = [] := by
  have hnr : ∀ relEid, SyncEv.releaseEv 9 relEid ∉
      [SyncEv.releaseEv 5 77, SyncEv.otherEv] := by
    intro relEid hmem
    rcases List.mem_cons.mp hmem with hc | hc
    · exact SyncEv.noConfusion hc (fun h _ => by omega)
    · rcases List.mem_cons.mp hc with hc2 | hc2
      · exact SyncEv.noConfusion hc2
      · exact absurd hc2 (List.not_mem_nil _)
  have h := c6_never_released_leaf [SyncEv.releaseEv 5 77, SyncEv.otherEv] 9 hnr
  exact ⟨hnr, h.1, h.2 [] 41 0 0 1⟩

/-! ## Store instrumentation (NvmInstrumenter.cpp)

`performNvmInstrumentation` computes the bit width of each store's value
type (pointers count as 64) and inserts `nvm_store` calls before the
store: one for widths up to 64; for wider values it asserts
`sz <= 128` and `sz % 8 == 0`, then inserts `nvm_store(addr, 64)` plus
`nvm_store(addr + 8, sz - 64)`.  A failed assert is a rejected store
(`none`). -/

inductive StoreValTy where
  | intTy (bits : Nat)
  | floatTy
  | doubleTy
  | x86fp80Ty
  | fp128Ty
  | ptrTy
  | otherTy
deriving DecidableEq, Repr

/-- `getPrimitiveSizeInBits` for the accepted types; `none` for types
the pass asserts out. -/
def storeBits : StoreValTy → Option Nat
  | .intTy b => some b
  | .floatTy => some 32
  | .doubleTy => some 64
  | .x86fp80Ty => some 80
  | .fp128Ty => some 128
  | .ptrTy => some 64
  | .otherTy => none

/-- The `(address, bit-size)` arguments of the `nvm_store` calls the pass
emits for one store instruction. -/
def instrumentStore (addr : Nat) (ty : StoreValTy) : Option (List (Nat × Nat)) :=
  match storeBits ty with
  | none => none
  | some sz =>
    if 64 < sz then
      if sz ≤ 128 ∧ sz % 8 = 0 then some [(addr, 64), (addr + 8, sz - 64)]
      else none
    else some [(addr, sz)]

/-- Counterexample to CLAIM C9 as stated: an `i65` store (an LLVM
integer store wider than 64 and at most 128 bits) does not produce two
log calls — `assert(!(sz % 8))` rejects it, exactly like the claim's
"rejected" case for widths over 128. -/
theorem c9_store_split_counterexample :
    storeBits (.intTy 65) = some 65 ∧
    instrumentStore 0 (.intTy 65) = none ∧
    ¬ (instrumentStore 0 (.intTy 65) = some [(0, 64), (8, 1)]) := by
  decide

/-- CLAIM C9 (amended form). For a store of width `sz` with
`64 < sz ≤ 128` whose width is a multiple of 8 (every non-integer C
type reaching this path — x86_fp80, fp128 — satisfies this), the pass
emits exactly two `nvm_store` calls, `[addr, addr+8)` at 64 bits and the
tail at `addr + 8` with `sz - 64 ≤ 64` bits; widths over 128, and widths
over 64 that are not byte multiples, are rejected; widths up to 64 emit
a single call. -/
theorem c9_store_split (addr : Nat) (ty : StoreValTy) (sz : Nat)
    (hsz : storeBits ty = some sz) :
    (64 < sz → sz ≤ 128 → sz % 8 = 0 →
      instrumentStore addr ty = some [(addr, 64), (addr + 8, sz - 64)] ∧
      sz - 64 ≤ 64) ∧
    (128 < sz → instrumentStore addr ty = none) ∧
    (64 < sz → sz % 8 ≠ 0 → instrumentStore addr ty = none) ∧
    (sz ≤ 64 → instrumentStore addr ty = some [(addr, sz)]) := by
  refine ⟨?_, ?_, ?_, ?_⟩
  · intro h1 h2 h3
    rw [instrumentStore, hsz]
    simp only [h1, if_pos]
    rw [if_pos ⟨h2, h3⟩]
    exact ⟨rfl, by omega⟩
  · intro h1
    rw [instrumentStore, hsz]
    show (if 64 < sz then
        if sz ≤ 128 ∧ sz % 8 = 0 then some [(addr, 64), (addr + 8, sz - 64)]
        else none
      else some [(addr, sz)]) = none
    rw [if_pos (by omega), if_neg (by omega)]
  · intro h1 h2
    rw [instrumentStore, hsz]
    show (if 64 < sz then
        if sz ≤ 128 ∧ sz % 8 = 0 then some [(addr, 64), (addr + 8, sz - 64)]
        else none
      else some [(addr, sz)]) = none
    rw [if_pos h1, if_neg (by intro hc; exact h2 hc.2)]
  · intro h1
    rw [instrumentStore, hsz]
    show (if 64 < sz then
        if sz ≤ 128 ∧ sz % 8 = 0 then some [(addr, 64), (addr + 8, sz - 64)]
        else none
      else some [(addr, sz)]) = some [(addr, sz)]
    rw [if_neg (by omega)]

/-- Witness for the amended C9: an fp128 store splits into the two
calls, an i200 store and an i100 store are rejected, a double store
emits one call. -/
theorem c9_store_split_witness :
    storeBits .fp128Ty = some 128 ∧
    instrumentStore 1000 .fp128Ty = some [(1000, 64), (1008, 64)] ∧
    instrumentStore 1000 (.intTy 200) = none ∧
    instrumentStore 1000 (.intTy 100) = none ∧
    instrumentStore 1000 .doubleTy = some [(1000, 64)] := by
  refine ⟨rfl, ?_, ?_, ?_, ?_⟩
  · exact ((c9_store_split 1000 .fp128Ty 128 rfl).1 (by omega) (by omega)
      (by omega)).1
  · exact (c9_store_split 1000 (.intTy 200) 200 rfl).2.1 (by omega)
  · exact (c9_store_split 1000 (.intTy 100) 100 rfl).2.2.1 (by omega) (by omega)
  · exact (c9_store_split 1000 .doubleTy 64 rfl).2.2.2 (by omega)

/-! ## nvm_barrier classification (log_mgr_api.cpp)

`nvm_barrier(p)` first calls `NVM_IsInOpenPR(p, 1)` and returns without
any effect when `p` is not inside an open persistent region; otherwise
it runs `full_fence(); nvm_clflush(p); full_fence()`.  `NVM_IsInOpenPR`
and the extent lookup `findExtent` live outside the provided sources and
are modelled from the spec: the extent map is the set of open regions'
address intervals, and a span is classified by the first interval
containing it (INVALID — here `none` — when no single interval does). -/

structure Extent where
  lo : Nat
  hi : Nat
  rid : Nat
deriving DecidableEq, Repr

/-- Modelled from the spec: interval classification over the extent map. -/
def findExtent (em : List Extent) (lo hi : Nat) : Option Nat :=
  (em.find? (fun iv => iv.lo ≤ lo && hi ≤ iv.hi)).map (·.rid)

/-- `getOpenPRegionId` (pregion_mgr.cpp): classify `[addr, addr+sz-1]`. -/
def getOpenPRegionId (em : List Extent) (addr sz : Nat) : Option Nat :=
  findExtent em addr (addr + sz - 1)

/-- Modelled from the spec: `NVM_IsInOpenPR(addr, sz)` is true iff the
classifier returns a region. -/
def NVM_IsInOpenPR (em : List Extent) (addr sz : Nat) : Bool :=
  (getOpenPRegionId em addr sz).isSome

inductive FlushAct where
  | fenceAct
  | clflushAct (a : Nat)
deriving DecidableEq, Repr

/-- `nvm_barrier` as a transformer of the sequence of issued
fence/flush actions. -/
def nvm_barrier (em : List Extent) (tr : List FlushAct) (p : Nat) :
    List FlushAct :=
  if !NVM_IsInOpenPR em p 1 then tr
  else tr ++ [.fenceAct, .clflushAct p, .fenceAct]

/-- CLAIM C10. `nvm_barrier(p)` classifies `p` first: when `p` lies in
no open persistent region it performs no fence and no cache-line flush
and leaves all state unchanged; when `p` is inside an open region it
issues exactly the fence, cache-line flush of `p`, fence sequence. -/
theorem c10_barrier_frame (em : List Extent) (tr : List FlushAct) (p : Nat) :
    ((∀ iv ∈ em, ¬ (iv.lo ≤ p ∧ p ≤ iv.hi)) → nvm_barrier em tr p = tr) ∧
    ((getOpenPRegionId em p 1).isSome = true →
      nvm_barrier em tr p = tr ++ [.fenceAct, .clflushAct p, .fenceAct]) := by
  constructor
  · intro h
    have hnone : getOpenPRegionId em p 1 = none := by
      unfold getOpenPRegionId findExtent
      rw [show (em.find? (fun iv => iv.lo ≤ p && p + 1 - 1 ≤ iv.hi)) = none from ?_]
      · rfl
      · rw [List.find?_eq_none]
        intro iv hmem hcon
        simp only [Bool.and_eq_true, decide_eq_true_eq] at hcon
        exact h iv hmem ⟨hcon.1, by omega⟩
    unfold nvm_barrier NVM_IsInOpenPR
    rw [hnone]
    rfl
  · intro h
    unfold nvm_barrier NVM_IsInOpenPR
    rw [h]
    rfl

/-- Witness for C10: one open region `[1000, 1999]`; address 5 is
outside every open region (no actions), address 1500 is inside (the
fence-flush-fence sequence). -/
theorem c10_barrier_frame_witness :
    (∀ iv ∈ [(⟨1000, 1999, 0⟩ : Extent)], ¬ (iv.lo ≤ 5 ∧ 5 ≤ iv.hi)) ∧
    nvm_barrier [⟨1000, 1999, 0⟩] [] 5 = [] ∧
    (getOpenPRegionId [(⟨1000, 1999, 0⟩ : Extent)] 1500 1).isSome = true ∧
    nvm_barrier [⟨1000, 1999, 0⟩] [] 1500 =
      [.fenceAct, .clflushAct 1500, .fenceAct] := by
  have h1 : ∀ iv ∈ [(⟨1000, 1999, 0⟩ : Extent)], ¬ (iv.lo ≤ 5 ∧ 5 ≤ iv.hi) := by
    decide
  refine ⟨h1, ?_, by decide, ?_⟩
  · exact (c10_barrier_frame [⟨1000, 1999, 0⟩] [] 5).1 h1
  · exact (c10_barrier_frame [⟨1000, 1999, 0⟩] [] 1500).2 (by decide)

end AtlasModel
